import Mathlib

/-!
Verification development for the `sliding_solver` repository.

The repository implements a Ricochet-Robots-style sliding-piece puzzle
solver.  Two solver implementations exist:

* `src/solver.rs` — positions packed into a `u8` as `(x << 4) | y`, and a
  dense `[[[[bool; 2]; 160]; 160]; 160]` visited table, BFS over a
  `VecDeque` of `Rc`-linked parent-pointer nodes;
* `src/main.rs` — `(i8, i8)` coordinate pairs, a `HashSet` visited set,
  BFS over a `VecDeque` of `(state, move-list)` pairs.

This file gives a shallow embedding of both and proves the spec claims.

Modelling conventions:
* Machine integers become `Nat` (with an explicit `% 256` where the Rust
  code truncates `as u8`) or `Int` for the `i8` coordinates of `main.rs`.
* Rust `Vec` indexing is totalized with `List.getD` (default `Empty`); all
  board reads performed by the code are guarded by in-bounds checks, so
  the default is never observable for in-bounds inputs.
* The only indexing the code performs that is *not* guarded is into the
  dense visited table; that one is modelled fallibly (`visGet`) and an
  out-of-bounds access surfaces as the explicit `BfsRes.panic` outcome.
* The `while` loops (the slide loop and the BFS loop) are modelled with
  fuel; sufficiency of the fuel is proved, not assumed.
* The Rust search node holds a parent pointer and the move that produced
  the state; `Node.moves()` walks the parents and reverses, which yields
  exactly the list of moves from the root.  The embedding stores that
  reconstructed list (`path`) directly in the node.
-/


namespace Solver

/-- `Direction` from `src/solver.rs`. -/
inductive Direction where
  | Up
  | Down
  | Left
  | Right
deriving DecidableEq, Repr

/-- `PieceType` from `src/solver.rs`. -/
inductive PieceType where
  | HelperOne
  | HelperTwo
  | Main
deriving DecidableEq, Repr

/-- `BoardPiece` from `src/solver.rs`. -/
inductive BoardPiece where
  | Start
  | Goal
  | Blocker
  | Empty
  | BoardHelper
  | BoardMain
deriving DecidableEq, Repr

/-- A move, `type Move = (PieceType, Direction)`. -/
abbrev SMove := PieceType × Direction

/-- `type State = (Position, Position, Position, u8)` from `src/solver.rs`:
main-piece position, helper-one position, helper-two position, and the
goal-visited flag (`0` or `1` in every state the solver constructs). -/
structure SState where
  m : Nat
  h1 : Nat
  h2 : Nat
  fl : Nat
deriving DecidableEq, Repr

/-- `type Board = Vec<Vec<BoardPiece>>`: a list of rows. -/
abbrev Board := List (List BoardPiece)

/-- `board[0].len()` — the width used by the bounds check in `try_move`. -/
def boardW (b : Board) : Nat := (b.getD 0 []).length

/-- `board[y][x]`, totalized with default `Empty` (see header). -/
def cellAt (b : Board) (x y : Nat) : BoardPiece := (b.getD y []).getD x .Empty

/-- `pos_to_x`: `(pos >> 4) as usize`. -/
def pos_to_x (p : Nat) : Nat := p / 16

/-- `pos_to_y`: `(pos & 0b0000_1111) as usize`. -/
def pos_to_y (p : Nat) : Nat := p % 16

/-- `xy_to_pos`: `((x << 4) + y) as u8` — note the `u8` truncation. -/
def xy_to_pos (x y : Nat) : Nat := (16 * x + y) % 256

/-- `try_move` from `src/solver.rs`: one unit step from `p` in direction
`d`; `none` when the step leaves the board, lands on a `Blocker` cell, or
lands on a cell occupied by any of the three pieces of `st`. -/
def tryMove (b : Board) (st : SState) (d : Direction) (p : Nat) : Option Nat :=
  let x := pos_to_x p
  let y := pos_to_y p
  if (y = 0 ∧ d = .Up) ∨ (x = 0 ∧ d = .Left)
      ∨ (y + 1 ≥ b.length ∧ d = .Down) ∨ (x + 1 ≥ boardW b ∧ d = .Right) then
    none
  else
    let xy : Nat × Nat :=
      match d with
      | .Up => (x, y - 1)
      | .Down => (x, y + 1)
      | .Left => (x - 1, y)
      | .Right => (x + 1, y)
    match cellAt b xy.1 xy.2 with
    | .Blocker => none
    | _ =>
      let q := xy_to_pos xy.1 xy.2
      if q = st.m ∨ q = st.h1 ∨ q = st.h2 then none else some q

/-- The `while let Some(pos) = try_move(..)` slide loop of `next_position`,
with fuel.  `slide_fuel_sufficient` below proves that fuel `256` always
reaches the loop's true fixpoint. -/
def slideAux (b : Board) (st : SState) (d : Direction) : Nat → Nat → Nat
  | 0, p => p
  | fuel + 1, p =>
    match tryMove b st d p with
    | none => p
    | some q => slideAux b st d fuel q

/-- `next_position` from `src/solver.rs`: the final resting position of a
piece at `p` sliding in direction `d`, or `none` when the very first step
is already blocked. -/
def nextPosition (b : Board) (st : SState) (p : Nat) (d : Direction) : Option Nat :=
  match tryMove b st d p with
  | none => none
  | some q => some (slideAux b st d 256 q)

/-- `move_piece` from `src/solver.rs`. -/
def move_piece (b : Board) (st : SState) (piece : PieceType) (d : Direction) :
    Option SState :=
  let start_pos :=
    match piece with
    | .Main => st.m
    | .HelperOne => st.h1
    | .HelperTwo => st.h2
  match nextPosition b st start_pos d with
  | none => none
  | some pos =>
    some (match piece with
      | .Main =>
        let goal_found :=
          if st.fl = 1 ∨ cellAt b (pos_to_x pos) (pos_to_y pos) = .Goal then 1 else 0
        ⟨pos, st.h1, st.h2, goal_found⟩
      | .HelperOne => ⟨st.m, pos, st.h2, st.fl⟩
      | .HelperTwo => ⟨st.m, st.h1, pos, st.fl⟩)

/-- `neighbourhood` from `src/solver.rs`: all `(move, successor)` pairs, in
the code's fixed order (pieces `Main, HelperOne, HelperTwo`, directions
`Left, Right, Up, Down`).  The Rust code pushes into a
`heapless::Vec<_, 12>`; the embedding collects the pushes into a list, so
the list length is the number of pushes performed. -/
def neighbourhood (b : Board) (st : SState) : List (SMove × SState) :=
  ([.Main, .HelperOne, .HelperTwo] : List PieceType).flatMap (fun piece =>
    ([.Left, .Right, .Up, .Down] : List Direction).filterMap (fun d =>
      (move_piece b st piece d).map (fun s' => ((piece, d), s'))))

/-- The solution test of the BFS loop: `state.3 == 1 &&
board[pos_to_y(&state.0)][pos_to_x(&state.0)] == BoardPiece::Start`. -/
def solFound (b : Board) (st : SState) : Bool :=
  decide (st.fl = 1 ∧ cellAt b (pos_to_x st.m) (pos_to_y st.m) = BoardPiece.Start)

/-- A search node: its state and the move list from the root (the Rust
node's `moves()` reconstruction, see header). -/
structure Node where
  state : SState
  path : List SMove
deriving DecidableEq, Repr

/-- The in-bounds condition of the dense visited table
`[[[[bool; 2]; 160]; 160]; 160]`: each packed position indexes a
`160`-element axis, the flag a `2`-element axis. -/
def visIdxOk (s : SState) : Prop :=
  s.m < 160 ∧ s.h1 < 160 ∧ s.h2 < 160 ∧ s.fl < 2

instance (s : SState) : Decidable (visIdxOk s) := by
  unfold visIdxOk; infer_instance

/-- The visited table, as the function its in-bounds entries realize. -/
abbrev Vis := SState → Bool

/-- Reading `visited[s.0][s.1][s.2][s.3]`: `none` models the Rust
index-out-of-bounds panic. -/
def visGet (v : Vis) (s : SState) : Option Bool :=
  if visIdxOk s then some (v s) else none

/-- Writing `visited[s.0][s.1][s.2][s.3] = true`.  In the code the write
always follows a successful read of the same four indices, so it is
modelled as a total update. -/
def vUpd (v : Vis) (s : SState) : Vis :=
  fun s' => if s' = s then true else v s'

/-- Result of a search.  The Rust function returns
`Option<(&Board, State, Vec<Move>)>`; the borrowed board is the input
board, so `solved` carries only the terminal state and the move list.
`panic` models the visited-table index-out-of-bounds panic, `outOfFuel`
is the fuel-model artifact (proved avoidable for sufficient fuel). -/
inductive BfsRes where
  | solved (state : SState) (moves : List SMove)
  | unsolvable
  | panic
  | outOfFuel
deriving DecidableEq, Repr

/-- The successor-enqueueing `for` loop in `solve_puzzle`: for each
`(move, state)` of the neighbourhood, skip if visited, else push a child
node and mark visited. -/
def pushSucc (par : Node) :
    List (SMove × SState) → List Node → Vis → Option (List Node × Vis)
  | [], q, v => some (q, v)
  | (mv, s) :: rest, q, v =>
    match visGet v s with
    | none => none
    | some true => pushSucc par rest q v
    | some false => pushSucc par rest (q ++ [⟨s, par.path ++ [mv]⟩]) (vUpd v s)

/-- The `while let Some(node) = queue.pop_front()` loop of `solve_puzzle`,
with fuel. -/
def bfsAux (b : Board) : Nat → List Node → Vis → BfsRes
  | 0, _, _ => .outOfFuel
  | fuel + 1, q, v =>
    match q with
    | [] => .unsolvable
    | n :: rest =>
      if solFound b n.state then .solved n.state n.path
      else
        match pushSucc n (neighbourhood b n.state) rest v with
        | none => .panic
        | some (q', v') => bfsAux b fuel q' v'

/-- `let mut visited = [[[[false; 2]; 160]; 160]; 160];` — the visited
table with which `solve_puzzle` starts its loop: everything unvisited.
In particular it does *not* contain the initial state. -/
def visInit : Vis := fun _ => false

/-- `solve_puzzle` from `src/solver.rs` (fuel-indexed). -/
def solve_puzzle (b : Board) (s : SState) (fuel : Nat) : BfsRes :=
  bfsAux b fuel [⟨s, []⟩] visInit

/-- `pathOk b s ms t`: the move list `ms` is a sequence of legal sliding
moves (each accepted by `move_piece`) transforming state `s` into `t`. -/
def pathOk (b : Board) : SState → List SMove → SState → Bool
  | s, [], t => decide (s = t)
  | s, mv :: tl, t =>
    match move_piece b s mv.1 mv.2 with
    | none => false
    | some u => pathOk b u tl t



/-! ## The slide loop: fuel sufficiency

Each successful `try_move` step adds a direction-dependent constant to the
packed position, modulo 256 (`xy_to_pos` truncates to `u8`).  A step never
lands on any of the three piece positions of the current state, and the
moving piece's own position is one of those, so the trajectory can never
wrap past its own starting cell: a direction-dependent measure decreases
strictly and the loop stops within 256 iterations. -/

/-- `stPos st p`: `p` is one of the three piece positions of `st`. -/
def stPos (st : SState) (p : Nat) : Prop := p = st.m ∨ p = st.h1 ∨ p = st.h2

instance (st : SState) (p : Nat) : Decidable (stPos st p) := by
  unfold stPos; infer_instance

/-- The packed-position increment (mod 256) of one step in direction `d`. -/
def delta : Direction → Nat
  | .Up => 255
  | .Down => 1
  | .Left => 240
  | .Right => 16

/-- The per-step decrease of the slide measure. -/
def sdec : Direction → Nat
  | .Up => 1
  | .Down => 1
  | .Left => 16
  | .Right => 16

/-- Termination measure of the slide loop in direction `d`, for a piece
that started at packed position `p0`. -/
def smeasure (d : Direction) (p0 p : Nat) : Nat :=
  match d with
  | .Up => p
  | .Left => p
  | .Down => (p0 + 256 - p) % 256
  | .Right => (p0 + 256 - p) % 256

/-- The component of the state that `move_piece` reads as the moving
piece's start position. -/
def piecePos (st : SState) : PieceType → Nat
  | .Main => st.m
  | .HelperOne => st.h1
  | .HelperTwo => st.h2

/-- All three piece positions fit in a `u8` (they do in the Rust code by
typing; the embedding states it as a hypothesis where needed). -/
def stLt256 (st : SState) : Prop := st.m < 256 ∧ st.h1 < 256 ∧ st.h2 < 256

instance (st : SState) : Decidable (stLt256 st) := by
  unfold stLt256; infer_instance

/-- Instrumented twin of `pushSucc` that also records, in order, every
state written into the visited table (the insertion log).  The queue and
table updates are identical to `pushSucc`. -/
def pushSuccLog (par : Node) :
    List (SMove × SState) → List Node → Vis → List SState →
      Option (List Node × Vis × List SState)
  | [], q, v, log => some (q, v, log)
  | (mv, s) :: rest, q, v, log =>
    match visGet v s with
    | none => none
    | some true => pushSuccLog par rest q v log
    | some false =>
      pushSuccLog par rest (q ++ [⟨s, par.path ++ [mv]⟩]) (vUpd v s) (log ++ [s])

/-- Instrumented twin of `bfsAux` returning the full insertion log of the
run (used to reason about how often states enter the visited set). -/
def bfsLog (b : Board) : Nat → List Node → Vis → List SState → List SState
  | 0, _, _, log => log
  | fuel + 1, q, v, log =>
    match q with
    | [] => log
    | n :: rest =>
      if solFound b n.state then log
      else
        match pushSuccLog n (neighbourhood b n.state) rest v log with
        | none => log
        | some (q', v', log') => bfsLog b fuel q' v' log'

/-- A small concrete puzzle: a `3 × 2` board, `Start` at `(0,0)`, `Goal`
at `(2,0)`; main piece on the start cell, helpers at `(0,1)` and
`(1,1)`. -/
def exBoard : Board := [[.Start, .Empty, .Goal], [.Empty, .Empty, .Empty]]

/-- The initial state of `exBoard`: packed positions `0`, `1`, `17`. -/
def exState : SState := ⟨0, 1, 17, 0⟩

/-- An 11-cell-wide, 1-cell-tall, all-`Empty` board: legal play reaches
packed position `16 * 10 = 160`, which overruns the visited table. -/
def wideBoard : Board :=
  [[.Empty, .Empty, .Empty, .Empty, .Empty, .Empty, .Empty, .Empty, .Empty,
    .Empty, .Empty]]

/-- Initial state on `wideBoard`: main at `(9,0)`, helpers at `(0,0)` and
`(1,0)` — all in bounds. -/
def wideState : SState := ⟨144, 0, 16, 0⟩

/-- The invariant maintained by the BFS loop of `solve_puzzle`, relative
to the root state `s0`.  `q` is the current queue, `done` the (ghost)
list of already-dequeued nodes, `v` the visited table. -/
structure SearchInv (b : Board) (s0 : SState) (q : List Node) (done : List Node)
    (v : Vis) : Prop where
  valid : ∀ n ∈ q ++ done, pathOk b s0 n.path n.state = true
  sorted : q.Pairwise (fun a c => a.path.length ≤ c.path.length)
  spread : ∀ a ∈ q, ∀ c ∈ q, a.path.length ≤ c.path.length + 1
  done_le : ∀ nd ∈ done, ∀ n ∈ q, nd.path.length ≤ n.path.length
  done_ng : ∀ nd ∈ done, solFound b nd.state = false
  done_exp : ∀ nd ∈ done, ∀ mv t, (mv, t) ∈ neighbourhood b nd.state →
      ∃ n ∈ q ++ done, n.state = t ∧ n.path.length ≤ nd.path.length + 1
  vis_cov : ∀ s, v s = true → ∃ n ∈ q ++ done, n.state = s
  root : ∃ n ∈ q ++ done, n.state = s0 ∧ n.path = []

/-- A `3 × 3` board on which no piece can move: the main piece sits on
`Start` at `(0,0)` walled in by blockers, the helpers at `(2,0)` and
`(2,2)` likewise. -/
def encBoard : Board :=
  [[.Start, .Blocker, .Empty],
   [.Blocker, .Empty, .Blocker],
   [.Empty, .Blocker, .Empty]]

/-- Initial state on `encBoard`: main `(0,0)`, helpers `(2,0)`, `(2,2)`. -/
def encState : SState := ⟨0, 32, 34, 0⟩

/-- The decoded coordinates of packed position `p` lie on the board. -/
def posInBoard (b : Board) (p : Nat) : Prop :=
  pos_to_x p < boardW b ∧ pos_to_y p < b.length

instance (b : Board) (p : Nat) : Decidable (posInBoard b p) := by
  unfold posInBoard; infer_instance

/-- All three pieces of `st` are on the board and the flag is `0` or `1`
(the shape of every state the solver constructs from a validated
input). -/
def inBoundsSt (b : Board) (st : SState) : Prop :=
  posInBoard b st.m ∧ posInBoard b st.h1 ∧ posInBoard b st.h2 ∧ st.fl < 2

instance (b : Board) (st : SState) : Decidable (inBoundsSt b st) := by
  unfold inBoundsSt; infer_instance

/-- The index domain of the dense visited table, as a finite set. -/
def univ160 : Finset SState :=
  (Finset.range 160 ×ˢ Finset.range 160 ×ˢ Finset.range 160 ×ˢ
      Finset.range 2).image
    (fun x => ⟨x.1, x.2.1, x.2.2.1, x.2.2.2⟩)

/-- The number of table slots still false: the BFS termination measure's
main component. -/
def uCount (v : Vis) : Nat := (univ160.filter (fun s => v s = false)).card

end Solver

namespace MainRs

open Solver (Direction PieceType SMove)

/-! ## The `src/main.rs` solver

`main.rs` contains the hash-set-based variant of the solver: coordinates
are `(i8, i8)` pairs, the state is a 6-tuple of coordinates plus a
`bool` flag, the board is a fixed `[[BoardPiece; 8]; 8]` array, and the
visited structure is a `HashSet<State>` whose `len()` is returned with a
solution.  The `PieceType` and `Direction` enums are identical to the
ones in `solver.rs` and are shared with the `Solver` embedding so that
move lists of the two solvers can be compared directly.
-/

/-- `BoardPiece` from `src/main.rs` (its `Helper`/`Main` variants block
sliding, unlike the `BoardHelper`/`BoardMain` of `solver.rs`). -/
inductive CellM where
  | Start
  | Goal
  | Blocker
  | Empty
  | Helper
  | Main
deriving DecidableEq, Repr

/-- `type State = (i8, i8, i8, i8, i8, i8, bool)`: main `(x, y)`, helper
one `(x, y)`, helper two `(x, y)`, goal-visited flag. -/
structure MState where
  x0 : Int
  y0 : Int
  x1 : Int
  y1 : Int
  x2 : Int
  y2 : Int
  fl : Bool
deriving DecidableEq, Repr

/-- `type Board = [[BoardPiece; 8]; 8]`, as a list of rows (the `8 × 8`
shape is carried as a hypothesis where needed). -/
abbrev BoardM := List (List CellM)

/-- `board[y][x]`, totalized with default `Empty`; all reads the code
performs are behind the `0 ≤ x, y < 8` bounds check. -/
def cellAtM (b : BoardM) (x y : Int) : CellM :=
  (b.getD y.toNat []).getD x.toNat .Empty

/-- `step` from `src/main.rs`. -/
def stepM (p : Int × Int) (d : Direction) : Int × Int :=
  match d with
  | .Up => (p.1, p.2 - 1)
  | .Down => (p.1, p.2 + 1)
  | .Left => (p.1 - 1, p.2)
  | .Right => (p.1 + 1, p.2)

/-- `try_move` from `src/main.rs`: validate position `p` — on the board
(the array bounds are the literal `8`), not a blocking cell, not occupied
by any piece — and return it. -/
def try_moveM (p : Int × Int) (b : BoardM) (st : MState) : Option (Int × Int) :=
  if p.1 < 0 ∨ 8 ≤ p.1 ∨ p.2 < 0 ∨ 8 ≤ p.2 then none
  else
    match cellAtM b p.1 p.2 with
    | .Blocker => none
    | .Helper => none
    | .Main => none
    | _ =>
      if (st.x0 = p.1 ∧ st.y0 = p.2) ∨ (st.x1 = p.1 ∧ st.y1 = p.2)
          ∨ (st.x2 = p.1 ∧ st.y2 = p.2) then none
      else some p

/-- The `while let Some(pos) = try_move(step(new_pos, ..), ..)` loop of
`next_position`, with fuel (8 steps suffice on an `8 × 8` board; 256
matches the `solver.rs` embedding). -/
def slideM (b : BoardM) (st : MState) (d : Direction) : Nat → Int × Int → Int × Int
  | 0, p => p
  | fuel + 1, p =>
    match try_moveM (stepM p d) b st with
    | none => p
    | some q => slideM b st d fuel q

/-- `next_position` from `src/main.rs`. -/
def next_positionM (b : BoardM) (st : MState) (p : Int × Int) (d : Direction) :
    Option (Int × Int) :=
  let np := stepM p d
  match try_moveM np b st with
  | none => none
  | some _ => some (slideM b st d 256 np)

/-- `move_piece` from `src/main.rs`. -/
def move_pieceM (b : BoardM) (st : MState) (pc : PieceType) (d : Direction) :
    Option MState :=
  let start_pos :=
    match pc with
    | .Main => (st.x0, st.y0)
    | .HelperOne => (st.x1, st.y1)
    | .HelperTwo => (st.x2, st.y2)
  match next_positionM b st start_pos d with
  | none => none
  | some pos =>
    some (match pc with
      | .Main =>
        let goal_found := st.fl || decide (cellAtM b pos.1 pos.2 = .Goal)
        ⟨pos.1, pos.2, st.x1, st.y1, st.x2, st.y2, goal_found⟩
      | .HelperOne => ⟨st.x0, st.y0, pos.1, pos.2, st.x2, st.y2, st.fl⟩
      | .HelperTwo => ⟨st.x0, st.y0, st.x1, st.y1, pos.1, pos.2, st.fl⟩)

/-- `neighbourhood` from `src/main.rs` (same fixed iteration order as in
`solver.rs`). -/
def neighbourhoodM (b : BoardM) (st : MState) : List (SMove × MState) :=
  ([.Main, .HelperOne, .HelperTwo] : List PieceType).flatMap (fun piece =>
    ([.Left, .Right, .Up, .Down] : List Direction).filterMap (fun d =>
      (move_pieceM b st piece d).map (fun s' => ((piece, d), s'))))

/-- The solution test of the `main.rs` BFS loop:
`state.6 && board[state.1][state.0] == Start`. -/
def solFoundM (b : BoardM) (st : MState) : Bool :=
  st.fl && decide (cellAtM b st.x0 st.y0 = CellM.Start)

/-- The successor loop of `main.rs`'s `solve_puzzle`: skip visited
states, otherwise enqueue `(state, moves ++ [move])` and insert into the
`HashSet`. -/
def pushSuccM (parMoves : List SMove) :
    List (SMove × MState) → List (MState × List SMove) → Finset MState →
      List (MState × List SMove) × Finset MState
  | [], q, vis => (q, vis)
  | (mv, t) :: rest, q, vis =>
    if t ∈ vis then pushSuccM parMoves rest q vis
    else pushSuccM parMoves rest (q ++ [(t, parMoves ++ [mv])]) (insert t vis)

/-- The `while let Some((state, moves)) = queue.pop_front()` loop of
`main.rs`'s `solve_puzzle`, with fuel.  `none` is fuel exhaustion,
`some none` the `None` (unsolvable) return, and a success carries the
terminal state, the move list, and `visited.len()`. -/
def bfsAuxM (b : BoardM) : Nat → List (MState × List SMove) → Finset MState →
    Option (Option (MState × List SMove × Nat))
  | 0, _, _ => none
  | fuel + 1, q, vis =>
    match q with
    | [] => some none
    | (st, moves) :: rest =>
      if solFoundM b st then some (some (st, moves, vis.card))
      else
        match pushSuccM moves (neighbourhoodM b st) rest vis with
        | (q', vis') => bfsAuxM b fuel q' vis'

/-- `solve_puzzle` from `src/main.rs` (fuel-indexed); the visited set
starts empty and the queue holds the initial state with no moves. -/
def solve_puzzleM (b : BoardM) (s : MState) (fuel : Nat) :
    Option (Option (MState × List SMove × Nat)) :=
  bfsAuxM b fuel [(s, [])] ∅

/-! ## Correspondence with the `solver.rs` embedding -/

/-- Packing `(x, y)` coordinates into the `solver.rs` `u8` position. -/
def packP (x y : Int) : Nat := 16 * x.toNat + y.toNat

/-- The `solver.rs` state corresponding to a `main.rs` state. -/
def packSt (ms : MState) : Solver.SState :=
  ⟨packP ms.x0 ms.y0, packP ms.x1 ms.y1, packP ms.x2 ms.y2,
    if ms.fl then 1 else 0⟩

/-- Coordinates within the `8 × 8` board. -/
def inb8 (x y : Int) : Prop := 0 ≤ x ∧ x < 8 ∧ 0 ≤ y ∧ y < 8

instance (x y : Int) : Decidable (inb8 x y) := by
  unfold inb8; infer_instance

/-- All three pieces of a `main.rs` state are on the `8 × 8` board. -/
def mInb (ms : MState) : Prop :=
  inb8 ms.x0 ms.y0 ∧ inb8 ms.x1 ms.y1 ∧ inb8 ms.x2 ms.y2

instance (ms : MState) : Decidable (mInb ms) := by
  unfold mInb; infer_instance

/-- The cell-kind translation between the two `BoardPiece` enums. -/
def mapCell : CellM → Solver.BoardPiece
  | .Start => .Start
  | .Goal => .Goal
  | .Blocker => .Blocker
  | .Empty => .Empty
  | .Helper => .BoardHelper
  | .Main => .BoardMain

/-- The `main.rs` board has no `Helper`/`Main` cells (the claim restricts
boards to `Empty`, `Blocker`, `Start`, `Goal` cells). -/
def cellsRestricted (b : BoardM) : Prop :=
  ∀ row ∈ b, ∀ c ∈ row, c ≠ CellM.Helper ∧ c ≠ CellM.Main

instance (b : BoardM) : Decidable (cellsRestricted b) := by
  unfold cellsRestricted
  infer_instance

/-- The two boards are `8 × 8` and cellwise related by `mapCell`. -/
def boardRel (bm : BoardM) (bs : Solver.Board) : Prop :=
  bm.length = 8 ∧ (∀ row ∈ bm, row.length = 8) ∧
    bs.length = 8 ∧ (∀ row ∈ bs, row.length = 8) ∧
    ∀ x, x < 8 → ∀ y, y < 8 →
      Solver.cellAt bs x y = mapCell (cellAtM bm (x : Int) (y : Int))

instance (bm : BoardM) (bs : Solver.Board) : Decidable (boardRel bm bs) := by
  unfold boardRel
  infer_instance

/-- The visited `HashSet` and the dense table agree: a table entry is set
exactly when some in-bounds set member packs to it. -/
def visRel (vis : Finset MState) (v : Solver.Vis) : Prop :=
  (∀ ms ∈ vis, mInb ms) ∧
    ∀ s, v s = true ↔ ∃ ms ∈ vis, mInb ms ∧ packSt ms = s

/-- The two queues agree entrywise. -/
def queueRel (qm : List (MState × List SMove)) (qs : List Solver.Node) : Prop :=
  qs = qm.map (fun e => ⟨packSt e.1, e.2⟩) ∧ ∀ e ∈ qm, mInb e.1

/-- Outcome correspondence between the two solvers: fuel exhaustion on
both sides, unsolvable on both sides, or solutions with equal move lists
and corresponding terminal states.  The `main.rs` solution additionally
carries the visited count; the `solver.rs` one does not. -/
def resRel : Option (Option (MState × List SMove × Nat)) → Solver.BfsRes → Prop
  | none, .outOfFuel => True
  | some none, .unsolvable => True
  | some (some (t, m, _)), .solved ts ms => ts = packSt t ∧ ms = m
  | _, _ => False

/-- An enclosed `8 × 8` puzzle (each piece walled in by blockers, no goal
reachable): both solvers must report it unsolvable. -/
def encBoardM : BoardM :=
  [[.Start, .Blocker, .Empty, .Empty, .Empty, .Empty, .Blocker, .Empty],
   [.Blocker, .Empty, .Empty, .Empty, .Empty, .Empty, .Empty, .Blocker],
   [.Empty, .Empty, .Empty, .Empty, .Empty, .Empty, .Empty, .Empty],
   [.Empty, .Empty, .Empty, .Empty, .Empty, .Empty, .Empty, .Empty],
   [.Empty, .Empty, .Empty, .Empty, .Empty, .Empty, .Empty, .Empty],
   [.Empty, .Empty, .Empty, .Empty, .Empty, .Empty, .Empty, .Empty],
   [.Empty, .Empty, .Empty, .Empty, .Empty, .Empty, .Empty, .Blocker],
   [.Empty, .Blocker, .Empty, .Empty, .Empty, .Empty, .Blocker, .Empty]]

/-- The corresponding `solver.rs` board for `encBoardM`. -/
def encBoardS : Solver.Board :=
  [[.Start, .Blocker, .Empty, .Empty, .Empty, .Empty, .Blocker, .Empty],
   [.Blocker, .Empty, .Empty, .Empty, .Empty, .Empty, .Empty, .Blocker],
   [.Empty, .Empty, .Empty, .Empty, .Empty, .Empty, .Empty, .Empty],
   [.Empty, .Empty, .Empty, .Empty, .Empty, .Empty, .Empty, .Empty],
   [.Empty, .Empty, .Empty, .Empty, .Empty, .Empty, .Empty, .Empty],
   [.Empty, .Empty, .Empty, .Empty, .Empty, .Empty, .Empty, .Empty],
   [.Empty, .Empty, .Empty, .Empty, .Empty, .Empty, .Empty, .Blocker],
   [.Empty, .Blocker, .Empty, .Empty, .Empty, .Empty, .Blocker, .Empty]]

/-- Enclosed initial state: main `(0,0)`, helpers `(7,0)` and `(7,7)`. -/
def encStateM : MState := ⟨0, 0, 7, 0, 7, 7, false⟩

end MainRs

namespace Solver

/-! ## Lemmas and claim theorems -/

theorem tryMove_char {b : Board} {st : SState} {d : Direction} {p q : Nat}
    (hp : p < 256) (h : tryMove b st d p = some q) :
    q = (p + delta d) % 256 ∧ q < 256 ∧ ¬ stPos st q ∧
      (d = .Up → 1 ≤ p % 16) ∧ ((d = .Left → 16 ≤ p) ∧
      (d = .Down → p % 16 + 1 < b.length) ∧
      (d = .Right → p / 16 + 1 < boardW b)) := by
  cases d with
  | Up =>
    unfold tryMove at h
    simp only [pos_to_x, pos_to_y, xy_to_pos, reduceCtorEq, and_true, and_false,
      false_or, or_false] at h
    split at h
    · exact absurd h (by simp)
    · rename_i hy
      split at h
      · exact absurd h (by simp)
      · split at h
        · exact absurd h (by simp)
        · rename_i hocc
          push_neg at hocc
          obtain ⟨h1, h2, h3⟩ := hocc
          simp only [Option.some.injEq] at h
          subst h
          refine ⟨?_, ?_, ?_, ?_, ?_⟩
          · simp only [delta]; omega
          · omega
          · simp only [stPos, not_or]; exact ⟨h1, h2, h3⟩
          · intro _; omega
          · exact ⟨fun hf => Direction.noConfusion hf,
              fun hf => Direction.noConfusion hf,
              fun hf => Direction.noConfusion hf⟩
  | Down =>
    unfold tryMove at h
    simp only [pos_to_x, pos_to_y, xy_to_pos, reduceCtorEq, and_true, and_false,
      false_or, or_false] at h
    split at h
    · exact absurd h (by simp)
    · rename_i hy
      split at h
      · exact absurd h (by simp)
      · split at h
        · exact absurd h (by simp)
        · rename_i hocc
          push_neg at hocc
          obtain ⟨h1, h2, h3⟩ := hocc
          simp only [Option.some.injEq] at h
          subst h
          refine ⟨?_, ?_, ?_, ?_, ?_⟩
          · simp only [delta]; omega
          · omega
          · simp only [stPos, not_or]; exact ⟨h1, h2, h3⟩
          · intro hf; exact Direction.noConfusion hf
          · exact ⟨fun hf => Direction.noConfusion hf,
              fun _ => by omega,
              fun hf => Direction.noConfusion hf⟩
  | Left =>
    unfold tryMove at h
    simp only [pos_to_x, pos_to_y, xy_to_pos, reduceCtorEq, and_true, and_false,
      false_or, or_false] at h
    split at h
    · exact absurd h (by simp)
    · rename_i hx
      split at h
      · exact absurd h (by simp)
      · split at h
        · exact absurd h (by simp)
        · rename_i hocc
          push_neg at hocc
          obtain ⟨h1, h2, h3⟩ := hocc
          simp only [Option.some.injEq] at h
          subst h
          refine ⟨?_, ?_, ?_, ?_, ?_⟩
          · simp only [delta]; omega
          · omega
          · simp only [stPos, not_or]; exact ⟨h1, h2, h3⟩
          · intro hf; exact Direction.noConfusion hf
          · exact ⟨fun _ => by omega,
              fun hf => Direction.noConfusion hf,
              fun hf => Direction.noConfusion hf⟩
  | Right =>
    unfold tryMove at h
    simp only [pos_to_x, pos_to_y, xy_to_pos, reduceCtorEq, and_true, and_false,
      false_or, or_false] at h
    split at h
    · exact absurd h (by simp)
    · rename_i hx
      split at h
      · exact absurd h (by simp)
      · split at h
        · exact absurd h (by simp)
        · rename_i hocc
          push_neg at hocc
          obtain ⟨h1, h2, h3⟩ := hocc
          simp only [Option.some.injEq] at h
          subst h
          refine ⟨?_, ?_, ?_, ?_, ?_⟩
          · simp only [delta]; omega
          · omega
          · simp only [stPos, not_or]; exact ⟨h1, h2, h3⟩
          · intro hf; exact Direction.noConfusion hf
          · exact ⟨fun hf => Direction.noConfusion hf,
              fun hf => Direction.noConfusion hf,
              fun _ => by omega⟩


theorem measure_step {d : Direction} {p0 p q : Nat}
    (hp : p < 256) (hp0 : p0 < 256) (hq : q = (p + delta d) % 256)
    (hpne : p ≠ p0)
    (hup : d = .Up → 1 ≤ p % 16) (hleft : d = .Left → 16 ≤ p)
    (hres : d = .Right → p % 16 = p0 % 16) :
    smeasure d p0 q + sdec d = smeasure d p0 p := by
  subst hq
  cases d with
  | Up => have := hup rfl; simp only [smeasure, sdec, delta]; omega
  | Down => simp only [smeasure, sdec, delta]; omega
  | Left => have := hleft rfl; simp only [smeasure, sdec, delta]; omega
  | Right => have := hres rfl; simp only [smeasure, sdec, delta]; omega

/-- Generic invariant preservation along the slide loop. -/
theorem slideAux_inv {b : Board} {st : SState} {d : Direction}
    (P : Nat → Prop)
    (hstep : ∀ a q, P a → tryMove b st d a = some q → P q) :
    ∀ fuel p, P p → P (slideAux b st d fuel p) := by
  intro fuel
  induction fuel with
  | zero => intro p hp; exact hp
  | succ n ih =>
    intro p hp
    simp only [slideAux]
    cases h : tryMove b st d p with
    | none => exact hp
    | some q => exact ih q (hstep p q hp h)

/-- The slide result is reachable from the start by `tryMove` steps. -/
theorem slideAux_chain {b : Board} {st : SState} {d : Direction} :
    ∀ fuel p,
      Relation.ReflTransGen (fun a c => tryMove b st d a = some c) p
        (slideAux b st d fuel p) := by
  intro fuel
  induction fuel with
  | zero => intro p; exact Relation.ReflTransGen.refl
  | succ n ih =>
    intro p
    simp only [slideAux]
    cases h : tryMove b st d p with
    | none => exact Relation.ReflTransGen.refl
    | some q => exact Relation.ReflTransGen.head h (ih q)

/-- With measure below `sdec d * fuel`, the slide loop reaches a genuine
fixpoint: `try_move` fails at the returned position. -/
theorem slideAux_stops {b : Board} {st : SState} {d : Direction} {p0 : Nat}
    (hp0 : p0 < 256) (hst : stPos st p0) :
    ∀ fuel p, p < 256 → p ≠ p0 → (d = .Right → p % 16 = p0 % 16) →
      smeasure d p0 p < sdec d * fuel →
      tryMove b st d (slideAux b st d fuel p) = none := by
  intro fuel
  induction fuel with
  | zero =>
    intro p _ _ _ hm
    simp at hm
  | succ n ih =>
    intro p hpb hpne hres hm
    simp only [slideAux]
    cases h : tryMove b st d p with
    | none => exact h
    | some q =>
      obtain ⟨hq, hqb, hqn, hup, hleft⟩ := tryMove_char hpb h
      have hqne : q ≠ p0 := fun hc => hqn (hc ▸ hst)
      have hstep := measure_step hpb hp0 hq hpne hup hleft.1 hres
      have hres' : d = .Right → q % 16 = p0 % 16 := by
        intro hd; subst hd
        simp only [delta] at hq
        have := hres rfl
        omega
      refine ih q hqb hqne hres' ?_
      have h16 : sdec d = 1 ∨ sdec d = 16 := by cases d <;> simp [sdec]
      rcases h16 with h16 | h16 <;> rw [h16] at hm hstep ⊢ <;> omega

/-- Specification of `next_position`: when it produces a resting position
`r`, then (i) `r` is reached from the start position by a nonempty chain
of legal unit steps, (ii) no further step from `r` is legal (the `while`
loop genuinely ended), and (iii) `r` is not any current piece position. -/
theorem nextPosition_spec {b : Board} {st : SState} {d : Direction} {p0 r : Nat}
    (hp0 : p0 < 256) (hst : stPos st p0)
    (h : nextPosition b st p0 d = some r) :
    (∃ p1, tryMove b st d p0 = some p1 ∧
        Relation.ReflTransGen (fun a c => tryMove b st d a = some c) p1 r) ∧
      tryMove b st d r = none ∧ ¬ stPos st r ∧ r < 256 := by
  unfold nextPosition at h
  cases h1 : tryMove b st d p0 with
  | none => rw [h1] at h; exact absurd h (by simp)
  | some p1 =>
    rw [h1] at h
    simp only [Option.some.injEq] at h
    obtain ⟨hq, hqb, hqn, _, _⟩ := tryMove_char hp0 h1
    have hqne : p1 ≠ p0 := fun hc => hqn (hc ▸ hst)
    have hres : d = .Right → p1 % 16 = p0 % 16 := by
      intro hd; subst hd
      simp only [delta] at hq
      omega
    have hstop : tryMove b st d (slideAux b st d 256 p1) = none := by
      apply slideAux_stops hp0 hst 256 p1 hqb hqne hres
      have hlt : smeasure d p0 p1 < 256 := by
        cases d <;> simp only [smeasure] <;> omega
      have hle : 256 ≤ sdec d * 256 := by cases d <;> simp [sdec]
      omega
    have hinv := @slideAux_inv b st d
      (fun p => p < 256 ∧ ¬ stPos st p)
      (fun a q ⟨hab, _⟩ hq2 => by
        obtain ⟨_, hqb', hqn', _, _⟩ := tryMove_char hab hq2
        exact ⟨hqb', hqn'⟩) 256 p1 ⟨hqb, hqn⟩
    subst h
    exact ⟨⟨p1, rfl, slideAux_chain 256 p1⟩, hstop, hinv.2, hinv.1⟩


/-! ## Move generator lemmas -/

/-- `move_piece` rewritten through `piecePos` (definitional). -/
theorem move_piece_eq (b : Board) (st : SState) (pc : PieceType) (d : Direction) :
    move_piece b st pc d =
      match nextPosition b st (piecePos st pc) d with
      | none => none
      | some pos =>
        some (match pc with
          | .Main => ⟨pos, st.h1, st.h2,
              if st.fl = 1 ∨ cellAt b (pos_to_x pos) (pos_to_y pos) = .Goal then 1 else 0⟩
          | .HelperOne => ⟨st.m, pos, st.h2, st.fl⟩
          | .HelperTwo => ⟨st.m, st.h1, pos, st.fl⟩) := by
  cases pc <;> rfl

theorem nextPosition_none_iff {b : Board} {st : SState} {p : Nat} {d : Direction} :
    nextPosition b st p d = none ↔ tryMove b st d p = none := by
  unfold nextPosition
  cases h : tryMove b st d p <;> simp

theorem move_piece_none_iff {b : Board} {st : SState} {pc : PieceType} {d : Direction} :
    move_piece b st pc d = none ↔ tryMove b st d (piecePos st pc) = none := by
  rw [move_piece_eq, ← nextPosition_none_iff]
  cases h : nextPosition b st (piecePos st pc) d <;> simp

theorem move_piece_some_next {b : Board} {st : SState} {pc : PieceType} {d : Direction}
    {t : SState} (h : move_piece b st pc d = some t) :
    ∃ r, nextPosition b st (piecePos st pc) d = some r ∧
      (pc = .Main → t = ⟨r, st.h1, st.h2,
          if st.fl = 1 ∨ cellAt b (pos_to_x r) (pos_to_y r) = .Goal then 1 else 0⟩) ∧
      (pc = .HelperOne → t = ⟨st.m, r, st.h2, st.fl⟩) ∧
      (pc = .HelperTwo → t = ⟨st.m, st.h1, r, st.fl⟩) := by
  rw [move_piece_eq] at h
  cases hnp : nextPosition b st (piecePos st pc) d with
  | none => rw [hnp] at h; exact absurd h (by simp)
  | some r =>
    rw [hnp] at h
    simp only [Option.some.injEq] at h
    refine ⟨r, rfl, ?_, ?_, ?_⟩ <;> intro hpc <;> subst hpc <;> exact h.symm

theorem mem_neighbourhood_iff {b : Board} {st : SState} {pc : PieceType}
    {d : Direction} {t : SState} :
    ((pc, d), t) ∈ neighbourhood b st ↔ move_piece b st pc d = some t := by
  unfold neighbourhood
  simp only [List.mem_flatMap, List.mem_filterMap, Option.map_eq_some',
    Prod.mk.injEq, List.mem_cons, List.mem_singleton]
  constructor
  · rintro ⟨piece, hpi, d', hd', u, hu, ⟨⟨hp, hd⟩, ht⟩⟩
    subst hp; subst hd; subst ht
    exact hu
  · intro h
    refine ⟨pc, ?_, d, ?_, t, h, ⟨⟨rfl, rfl⟩, rfl⟩⟩
    · cases pc <;> simp
    · cases d <;> simp

/-- Claim C10: the generator emits at most `3 × 4 = 12` pairs, so the
`heapless::Vec<_, 12>` push never overflows and the
`expect("Undersized vec")` branch is unreachable. -/
theorem neighbourhood_length_le_twelve (b : Board) (st : SState) :
    (neighbourhood b st).length ≤ 12 := by
  unfold neighbourhood
  simp only [List.flatMap_cons, List.flatMap_nil, List.append_nil, List.length_append]
  have h1 := List.length_filterMap_le
    (fun d => (move_piece b st .Main d).map (fun s' => ((PieceType.Main, d), s')))
    [Direction.Left, .Right, .Up, .Down]
  have h2 := List.length_filterMap_le
    (fun d => (move_piece b st .HelperOne d).map (fun s' => ((PieceType.HelperOne, d), s')))
    [Direction.Left, .Right, .Up, .Down]
  have h3 := List.length_filterMap_le
    (fun d => (move_piece b st .HelperTwo d).map (fun s' => ((PieceType.HelperTwo, d), s')))
    [Direction.Left, .Right, .Up, .Down]
  simp only [List.length_cons, List.length_nil] at h1 h2 h3
  omega

/-- Claim C3: a `(piece, direction)` move is emitted iff the first unit
step from the piece's position is legal; the emitted resting position is
reached from the start by legal unit steps and admits no further legal
step; and no emitted successor equals the input state. -/
theorem neighbourhood_emission_spec (b : Board) (st : SState) (pc : PieceType)
    (d : Direction) (hb : stLt256 st) :
    ((∃ t, ((pc, d), t) ∈ neighbourhood b st) ↔ (tryMove b st d (piecePos st pc)).isSome)
    ∧ (∀ t, ((pc, d), t) ∈ neighbourhood b st →
        ∃ r, nextPosition b st (piecePos st pc) d = some r ∧
          (∃ p1, tryMove b st d (piecePos st pc) = some p1 ∧
            Relation.ReflTransGen (fun a c => tryMove b st d a = some c) p1 r) ∧
          tryMove b st d r = none ∧ ¬ stPos st r)
    ∧ (∀ t, ((pc, d), t) ∈ neighbourhood b st → t ≠ st) := by
  obtain ⟨hm, hh1, hh2⟩ := hb
  have hppos : piecePos st pc < 256 := by cases pc <;> simpa [piecePos]
  have hstp : stPos st (piecePos st pc) := by
    cases pc <;> simp [piecePos, stPos]
  refine ⟨?_, ?_, ?_⟩
  · constructor
    · rintro ⟨t, ht⟩
      rw [mem_neighbourhood_iff] at ht
      rw [Option.isSome_iff_ne_none]
      intro hnone
      rw [← move_piece_none_iff] at hnone
      rw [ht] at hnone
      exact Option.noConfusion hnone
    · intro hsome
      cases hmp : move_piece b st pc d with
      | none =>
        rw [move_piece_none_iff] at hmp
        rw [hmp] at hsome
        exact absurd hsome (by simp)
      | some t => exact ⟨t, mem_neighbourhood_iff.mpr hmp⟩
  · intro t ht
    rw [mem_neighbourhood_iff] at ht
    obtain ⟨r, hr, _⟩ := move_piece_some_next ht
    obtain ⟨hchain, hstop, hnst, _⟩ := nextPosition_spec hppos hstp hr
    exact ⟨r, hr, hchain, hstop, hnst⟩
  · intro t ht
    rw [mem_neighbourhood_iff] at ht
    obtain ⟨r, hr, hMain, hH1, hH2⟩ := move_piece_some_next ht
    obtain ⟨_, _, hnst, _⟩ := nextPosition_spec hppos hstp hr
    intro hts
    cases pc with
    | Main =>
      have h2 : st.m = r := by rw [← hts, hMain rfl]
      exact hnst (Or.inl h2.symm)
    | HelperOne =>
      have h2 : st.h1 = r := by rw [← hts, hH1 rfl]
      exact hnst (Or.inr (Or.inl h2.symm))
    | HelperTwo =>
      have h2 : st.h2 = r := by rw [← hts, hH2 rfl]
      exact hnst (Or.inr (Or.inr h2.symm))

/-- Claim C5: `goal_visited` is monotone under `move_piece`, and a helper
move changes neither the flag, nor the main piece's position, nor the
other helper's position. -/
theorem move_piece_goal_monotone (b : Board) (st : SState) (pc : PieceType)
    (d : Direction) (t : SState) (h : move_piece b st pc d = some t) :
    (st.fl = 1 → t.fl = 1)
    ∧ (pc = .HelperOne → t.fl = st.fl ∧ t.m = st.m ∧ t.h2 = st.h2)
    ∧ (pc = .HelperTwo → t.fl = st.fl ∧ t.m = st.m ∧ t.h1 = st.h1) := by
  obtain ⟨r, hr, hMain, hH1, hH2⟩ := move_piece_some_next h
  cases pc with
  | Main =>
    have ht := hMain rfl
    subst ht
    refine ⟨fun hfl => ?_, fun hf => PieceType.noConfusion hf,
      fun hf => PieceType.noConfusion hf⟩
    simp [hfl]
  | HelperOne =>
    have ht := hH1 rfl
    subst ht
    exact ⟨fun hfl => hfl, fun _ => ⟨rfl, rfl, rfl⟩, fun hf => PieceType.noConfusion hf⟩
  | HelperTwo =>
    have ht := hH2 rfl
    subst ht
    exact ⟨fun hfl => hfl, fun hf => PieceType.noConfusion hf, fun _ => ⟨rfl, rfl, rfl⟩⟩

/-! ## BFS acceptance -/

theorem bfsAux_solved_solFound {b : Board} :
    ∀ fuel q v t ms, bfsAux b fuel q v = .solved t ms → solFound b t = true := by
  intro fuel
  induction fuel with
  | zero =>
    intro q v t ms h
    exact absurd h (by simp [bfsAux])
  | succ n ih =>
    intro q v t ms h
    cases q with
    | nil => exact absurd h (by simp [bfsAux])
    | cons nd rest =>
      simp only [bfsAux] at h
      by_cases hs : solFound b nd.state
      · simp only [hs, if_true] at h
        cases h
        exact hs
      · simp only [hs, Bool.false_eq_true, if_false] at h
        cases hps : pushSucc nd (neighbourhood b nd.state) rest v with
        | none => rw [hps] at h; exact absurd h (by simp)
        | some pr =>
          obtain ⟨q', v'⟩ := pr
          rw [hps] at h
          exact ih q' v' t ms h

/-- Claim C2: a dequeued head is returned as the solution exactly when its
`goal_visited` flag is `1` and the cell under its main piece is `Start`;
any returned solution state satisfies both conjuncts, so a state with the
flag unset is never accepted, even standing on `Start`. -/
theorem solve_accept_iff (b : Board) (n : Node) (rest : List Node) (v : Vis)
    (fuel : Nat) :
    (solFound b n.state = true →
        bfsAux b (fuel + 1) (n :: rest) v = .solved n.state n.path)
    ∧ (∀ t ms, bfsAux b (fuel + 1) (n :: rest) v = .solved t ms →
        t.fl = 1 ∧ cellAt b (pos_to_x t.m) (pos_to_y t.m) = BoardPiece.Start)
    ∧ (n.state.fl ≠ 1 →
        bfsAux b (fuel + 1) (n :: rest) v ≠ .solved n.state n.path) := by
  have hsol : ∀ t ms, bfsAux b (fuel + 1) (n :: rest) v = .solved t ms →
      t.fl = 1 ∧ cellAt b (pos_to_x t.m) (pos_to_y t.m) = BoardPiece.Start := by
    intro t ms h
    have := bfsAux_solved_solFound (fuel + 1) (n :: rest) v t ms h
    simpa [solFound] using this
  refine ⟨?_, hsol, ?_⟩
  · intro hs
    simp [bfsAux, hs]
  · intro hfl h
    exact hfl (hsol n.state n.path h).1

/-- Witness for C2 at a concrete input: a head node on the start cell with
the flag set is accepted immediately. -/
theorem solve_accept_iff_witness :
    solFound exBoard ⟨0, 1, 17, 1⟩ = true ∧
      bfsAux exBoard 1 [⟨⟨0, 1, 17, 1⟩, [(.Main, .Left)]⟩] visInit =
        .solved ⟨0, 1, 17, 1⟩ [(.Main, .Left)] :=
  ⟨by decide,
    (solve_accept_iff exBoard ⟨⟨0, 1, 17, 1⟩, [(.Main, .Left)]⟩ [] visInit 0).1
      (by decide)⟩

/-- Witness for C3 at a concrete input: on `exBoard` the emitted
`(Main, Right)` successor differs from the input state. -/
theorem neighbourhood_emission_spec_witness :
    stLt256 exState ∧ (⟨32, 1, 17, 1⟩ : SState) ≠ exState :=
  ⟨by decide,
    (neighbourhood_emission_spec exBoard exState .Main .Right (by decide)).2.2
      ⟨32, 1, 17, 1⟩ (by decide)⟩

/-- Witness for C5 at a concrete input: a helper move from a flag-set
state keeps the flag set. -/
theorem move_piece_goal_monotone_witness :
    move_piece exBoard ⟨32, 1, 17, 1⟩ .HelperTwo .Up = some ⟨32, 1, 16, 1⟩ ∧
      (⟨32, 1, 16, 1⟩ : SState).fl = 1 :=
  ⟨by decide,
    (move_piece_goal_monotone exBoard ⟨32, 1, 17, 1⟩ .HelperTwo .Up
        ⟨32, 1, 16, 1⟩ (by decide)).1 rfl⟩

/-! ## Paths -/

theorem pathOk_cons {b : Board} {s t : SState} {mv : SMove} {tl : List SMove} :
    pathOk b s (mv :: tl) t =
      match move_piece b s mv.1 mv.2 with
      | none => false
      | some u => pathOk b u tl t := rfl

theorem pathOk_nil_iff {b : Board} {s t : SState} :
    pathOk b s [] t = true ↔ s = t := by
  simp [pathOk]

theorem pathOk_snoc {b : Board} {pc : PieceType} {d : Direction} {t : SState} :
    ∀ ms (s u : SState), pathOk b s ms u = true →
      move_piece b u pc d = some t → pathOk b s (ms ++ [(pc, d)]) t = true := by
  intro ms
  induction ms with
  | nil =>
    intro s u hp hm
    rw [pathOk_nil_iff] at hp
    subst hp
    rw [List.nil_append, pathOk_cons]
    simp only [hm]
    exact pathOk_nil_iff.mpr rfl
  | cons mv tl ih =>
    intro s u hp hm
    rw [pathOk_cons] at hp
    rw [List.cons_append, pathOk_cons]
    cases hmv : move_piece b s mv.1 mv.2 with
    | none => rw [hmv] at hp; exact absurd hp (by simp)
    | some w =>
      rw [hmv] at hp
      exact ih w u hp hm

/-! ## The successor-push loop: specification -/

theorem pushSucc_spec (par : Node) :
    ∀ pairs (q : List Node) (v : Vis) q' v',
      pushSucc par pairs q v = some (q', v') →
      ∃ added : List Node,
        q' = q ++ added ∧
        (∀ c ∈ added, ∃ mv t, (mv, t) ∈ pairs ∧ c = ⟨t, par.path ++ [mv]⟩) ∧
        (∀ s, v' s = true ↔ (v s = true ∨ ∃ c ∈ added, c.state = s)) ∧
        (∀ mv t, (mv, t) ∈ pairs → v' t = true) ∧
        (∀ s, v s = true → v' s = true) ∧
        (∀ c ∈ added, v c.state = false) ∧
        (added.map Node.state).Nodup := by
  intro pairs
  induction pairs with
  | nil =>
    intro q v q' v' h
    simp only [pushSucc, Option.some.injEq, Prod.mk.injEq] at h
    obtain ⟨hq, hv⟩ := h
    subst hq; subst hv
    exact ⟨[], by simp, by simp, by simp, by simp, by simp, by simp, by simp⟩
  | cons p tl ih =>
    intro q v q' v' h
    obtain ⟨mv, sst⟩ := p
    simp only [pushSucc] at h
    cases hg : visGet v sst with
    | none => rw [hg] at h; exact absurd h (by simp)
    | some bb =>
      rw [hg] at h
      have hvs : v sst = bb := by
        unfold visGet at hg
        split at hg
        · exact (Option.some.injEq _ _).mp hg
        · exact absurd hg (by simp)
      cases bb with
      | true =>
        obtain ⟨added, haq, hchar, hiff, hall, hmono, hfresh, hnd⟩ :=
          ih q v q' v' h
        refine ⟨added, haq, ?_, hiff, ?_, hmono, hfresh, hnd⟩
        · intro c hc
          obtain ⟨mv', t, hmem, hc'⟩ := hchar c hc
          exact ⟨mv', t, List.mem_cons_of_mem _ hmem, hc'⟩
        · intro mv' t hmem
          rcases List.mem_cons.mp hmem with heq | hmem'
          · rw [Prod.mk.injEq] at heq
            rw [heq.2]
            exact hmono sst hvs
          · exact hall mv' t hmem'
      | false =>
        obtain ⟨added, haq, hchar, hiff, hall, hmono, hfresh, hnd⟩ :=
          ih (q ++ [⟨sst, par.path ++ [mv]⟩]) (vUpd v sst) q' v' h
        refine ⟨⟨sst, par.path ++ [mv]⟩ :: added, ?_, ?_, ?_, ?_, ?_, ?_, ?_⟩
        · rw [haq, List.append_assoc]
          rfl
        · intro c hc
          rcases List.mem_cons.mp hc with heq | hmem'
          · exact ⟨mv, sst, List.mem_cons_self .., heq⟩
          · obtain ⟨mv', t, hmem, hc'⟩ := hchar c hmem'
            exact ⟨mv', t, List.mem_cons_of_mem _ hmem, hc'⟩
        · intro s
          rw [hiff s]
          unfold vUpd
          constructor
          · rintro (hs | ⟨c, hc, hcs⟩)
            · by_cases hss : s = sst
              · exact Or.inr ⟨⟨sst, par.path ++ [mv]⟩, List.mem_cons_self .., hss.symm⟩
              · rw [if_neg hss] at hs
                exact Or.inl hs
            · exact Or.inr ⟨c, List.mem_cons_of_mem _ hc, hcs⟩
          · rintro (hs | ⟨c, hc, hcs⟩)
            · left
              by_cases hss : s = sst
              · simp [hss]
              · rw [if_neg hss]; exact hs
            · rcases List.mem_cons.mp hc with heq | hmem'
              · left
                subst heq
                simp only [← hcs]
                simp
              · exact Or.inr ⟨c, hmem', hcs⟩
        · intro mv' t hmem
          rcases List.mem_cons.mp hmem with heq | hmem'
          · rw [Prod.mk.injEq] at heq
            rw [heq.2]
            exact hmono sst (by simp [vUpd])
          · exact hall mv' t hmem'
        · intro s hs
          apply hmono
          unfold vUpd
          by_cases hss : s = sst <;> simp [hss, hs]
        · intro c hc
          rcases List.mem_cons.mp hc with heq | hmem'
          · subst heq
            exact hvs
          · have := hfresh c hmem'
            unfold vUpd at this
            split at this
            · exact absurd this (by simp)
            · exact this
        · rw [List.map_cons]
          refine List.nodup_cons.mpr ⟨?_, hnd⟩
          intro hmem
          obtain ⟨c, hc, hcs⟩ := List.mem_map.mp hmem
          have := hfresh c hc
          rw [hcs] at this
          simp [vUpd] at this

/-! ## BFS optimality (claim C1)

The ghost list `done` tracks dequeued nodes.  The chase lemma walks an
arbitrary path to a goal state along the invariant: every prefix endpoint
is either still covered by a queue node within depth budget, or was
dequeued (and its expansion is covered).  Since dequeued states are never
goal states, the walk must meet the queue before the path ends. -/

theorem bfs_chase {b : Board} {s0 : SState} {q done : List Node} {v : Vis}
    (inv : SearchInv b s0 q done v) :
    ∀ ms (sA u : SState), pathOk b sA ms u = true → solFound b u = true →
      ∀ D, (∃ nd ∈ done, nd.state = sA ∧ nd.path.length ≤ D) →
      ∃ n ∈ q, n.path.length ≤ D + ms.length := by
  intro ms
  induction ms with
  | nil =>
    intro sA u hp hu D hd
    obtain ⟨nd, hnd, hnds, hndl⟩ := hd
    rw [pathOk_nil_iff] at hp
    subst hp
    have hng := inv.done_ng nd hnd
    rw [hnds] at hng
    rw [hng] at hu
    exact absurd hu (by simp)
  | cons mv tl ih =>
    intro sA u hp hu D hd
    obtain ⟨nd, hndmem, hnds, hndl⟩ := hd
    rw [pathOk_cons] at hp
    cases hmv : move_piece b sA mv.1 mv.2 with
    | none => rw [hmv] at hp; exact absurd hp (by simp)
    | some w =>
      rw [hmv] at hp
      have hneigh : (mv, w) ∈ neighbourhood b nd.state := by
        rw [hnds]
        exact mem_neighbourhood_iff.mpr hmv
      obtain ⟨n', hn'mem, hn's, hn'l⟩ := inv.done_exp nd hndmem mv w hneigh
      rcases List.mem_append.mp hn'mem with hq | hdone
      · refine ⟨n', hq, ?_⟩
        simp only [List.length_cons]
        omega
      · obtain ⟨n2, hn2, hl⟩ :=
          ih w u hp hu (D + 1) ⟨n', hdone, hn's, by omega⟩
        refine ⟨n2, hn2, ?_⟩
        simp only [List.length_cons] at *
        omega

/-- At a dequeue, the head's depth is a lower bound for the length of any
move sequence from the root to a goal state. -/
theorem bfs_head_min {b : Board} {s0 : SState} {n : Node} {rest done : List Node}
    {v : Vis} (inv : SearchInv b s0 (n :: rest) done v) :
    ∀ ms u, pathOk b s0 ms u = true → solFound b u = true →
      n.path.length ≤ ms.length := by
  have hheadmin : ∀ x ∈ n :: rest, n.path.length ≤ x.path.length := by
    intro x hx
    rcases List.mem_cons.mp hx with rfl | hx'
    · exact le_refl _
    · exact (List.pairwise_cons.mp inv.sorted).1 x hx'
  intro ms u hp hu
  obtain ⟨r, hrmem, hrs, hrp⟩ := inv.root
  rcases List.mem_append.mp hrmem with hrq | hrd
  · have := hheadmin r hrq
    rw [hrp] at this
    simp only [List.length_nil] at this
    omega
  · obtain ⟨n2, hn2q, hl⟩ :=
      bfs_chase inv ms s0 u hp hu 0 ⟨r, hrd, hrs, by simp [hrp]⟩
    have := hheadmin n2 hn2q
    omega

/-- One BFS step preserves the search invariant: the head `n` moves to
`done`, its fresh successors join the queue at depth `n.depth + 1`. -/
theorem bfs_inv_step {b : Board} {s0 : SState} {n : Node} {rest done : List Node}
    {v : Vis} {q' : List Node} {v' : Vis}
    (inv : SearchInv b s0 (n :: rest) done v)
    (hng : solFound b n.state = false)
    (hps : pushSucc n (neighbourhood b n.state) rest v = some (q', v')) :
    SearchInv b s0 q' (done ++ [n]) v' := by
  obtain ⟨added, haq, hchar, hiff, hall, hmono, hfresh, hnd⟩ :=
    pushSucc_spec n _ rest v q' v' hps
  subst haq
  have hheadmin : ∀ x ∈ n :: rest, n.path.length ≤ x.path.length := by
    intro x hx
    rcases List.mem_cons.mp hx with rfl | hx'
    · exact le_refl _
    · exact (List.pairwise_cons.mp inv.sorted).1 x hx'
  have haddlen : ∀ c ∈ added, c.path.length = n.path.length + 1 := by
    intro c hc
    obtain ⟨mv, t, _, hc'⟩ := hchar c hc
    rw [hc']
    simp
  have haddmv : ∀ c ∈ added, ∃ mv, (mv, c.state) ∈ neighbourhood b n.state := by
    intro c hc
    obtain ⟨mv, t, hmem, hc'⟩ := hchar c hc
    exact ⟨mv, by rw [hc']; exact hmem⟩
  constructor
  · -- valid
    intro x hx
    rcases List.mem_append.mp hx with hx | hx
    · rcases List.mem_append.mp hx with hx | hx
      · exact inv.valid x (by simp [hx])
      · obtain ⟨mv, t, hmem, hc'⟩ := hchar x hx
        have hmp : move_piece b n.state mv.1 mv.2 = some t :=
          mem_neighbourhood_iff.mp (by simpa using hmem)
        have hv : pathOk b s0 n.path n.state = true := inv.valid n (by simp)
        rw [hc']
        exact pathOk_snoc n.path s0 n.state hv hmp
    · rcases List.mem_append.mp hx with hx | hx
      · exact inv.valid x (by simp [hx])
      · rw [List.mem_singleton.mp hx]
        exact inv.valid n (by simp)
  · -- sorted
    refine List.pairwise_append.mpr ⟨(List.pairwise_cons.mp inv.sorted).2, ?_, ?_⟩
    · refine List.pairwise_of_forall_mem_list ?_
      intro a ha c hc
      rw [haddlen a ha, haddlen c hc]
    · intro a ha c hc
      rw [haddlen c hc]
      have := inv.spread a (by simp [ha]) n (by simp)
      omega
  · -- spread
    intro a ha c hc
    rcases List.mem_append.mp ha with ha | ha <;>
      rcases List.mem_append.mp hc with hc | hc
    · exact inv.spread a (by simp [ha]) c (by simp [hc])
    · rw [haddlen c hc]
      have := inv.spread a (by simp [ha]) n (by simp)
      omega
    · rw [haddlen a ha]
      have := hheadmin c (by simp [hc])
      omega
    · rw [haddlen a ha, haddlen c hc]
      omega
  · -- done_le
    intro nd hnd x hx
    rcases List.mem_append.mp hnd with hnd | hnd
    · rcases List.mem_append.mp hx with hx | hx
      · exact inv.done_le nd hnd x (by simp [hx])
      · rw [haddlen x hx]
        have := inv.done_le nd hnd n (by simp)
        omega
    · rw [List.mem_singleton.mp hnd]
      rcases List.mem_append.mp hx with hx | hx
      · exact hheadmin x (by simp [hx])
      · rw [haddlen x hx]
        omega
  · -- done_ng
    intro nd hnd
    rcases List.mem_append.mp hnd with hnd | hnd
    · exact inv.done_ng nd hnd
    · rw [List.mem_singleton.mp hnd]
      exact hng
  · -- done_exp
    intro nd hnd mv t hmem
    rcases List.mem_append.mp hnd with hnd | hnd
    · obtain ⟨n', hn'mem, hn's, hn'l⟩ := inv.done_exp nd hnd mv t hmem
      rcases List.mem_append.mp hn'mem with hn'q | hn'd
      · rcases List.mem_cons.mp hn'q with rfl | hn'r
        · exact ⟨n', by simp, hn's, hn'l⟩
        · exact ⟨n', by simp [hn'r], hn's, hn'l⟩
      · exact ⟨n', by simp [hn'd], hn's, hn'l⟩
    · rw [List.mem_singleton.mp hnd] at hmem ⊢
      have hv' : v' t = true := hall mv t hmem
      rcases (hiff t).mp hv' with hvt | ⟨c, hc, hcs⟩
      · obtain ⟨n', hn'mem, hn's⟩ := inv.vis_cov t hvt
        rcases List.mem_append.mp hn'mem with hn'q | hn'd
        · rcases List.mem_cons.mp hn'q with rfl | hn'r
          · exact ⟨n', by simp, hn's, by omega⟩
          · refine ⟨n', by simp [hn'r], hn's, ?_⟩
            exact inv.spread n' (by simp [hn'r]) n (by simp)
        · refine ⟨n', by simp [hn'd], hn's, ?_⟩
          have := inv.done_le n' hn'd n (by simp)
          omega
      · refine ⟨c, by simp [hc], hcs, ?_⟩
        rw [haddlen c hc]
  · -- vis_cov
    intro sst hs
    rcases (hiff sst).mp hs with hvt | ⟨c, hc, hcs⟩
    · obtain ⟨n', hn'mem, hn's⟩ := inv.vis_cov sst hvt
      rcases List.mem_append.mp hn'mem with hn'q | hn'd
      · rcases List.mem_cons.mp hn'q with rfl | hn'r
        · exact ⟨n', by simp, hn's⟩
        · exact ⟨n', by simp [hn'r], hn's⟩
      · exact ⟨n', by simp [hn'd], hn's⟩
    · exact ⟨c, by simp [hc], hcs⟩
  · -- root
    obtain ⟨r, hrmem, hrs, hrp⟩ := inv.root
    rcases List.mem_append.mp hrmem with hrq | hrd
    · rcases List.mem_cons.mp hrq with rfl | hrr
      · exact ⟨r, by simp, hrs, hrp⟩
      · exact ⟨r, by simp [hrr], hrs, hrp⟩
    · exact ⟨r, by simp [hrd], hrs, hrp⟩

/-- Main BFS induction: a solved result is a valid path to a goal state of
minimum length among all move sequences reaching a goal state. -/
theorem bfs_min {b : Board} {s0 : SState} :
    ∀ fuel (q done : List Node) (v : Vis), SearchInv b s0 q done v →
      ∀ t moves, bfsAux b fuel q v = .solved t moves →
        pathOk b s0 moves t = true ∧ solFound b t = true ∧
          ∀ ms u, pathOk b s0 ms u = true → solFound b u = true →
            moves.length ≤ ms.length := by
  intro fuel
  induction fuel with
  | zero =>
    intro q done v inv t moves h
    exact absurd h (by simp [bfsAux])
  | succ k ih =>
    intro q done v inv t moves h
    cases q with
    | nil => exact absurd h (by simp [bfsAux])
    | cons n rest =>
      simp only [bfsAux] at h
      by_cases hs : solFound b n.state
      · simp only [hs, if_true] at h
        cases h
        exact ⟨inv.valid n (by simp), hs, fun ms u hp hu => bfs_head_min inv ms u hp hu⟩
      · simp only [hs, Bool.false_eq_true, if_false] at h
        cases hps : pushSucc n (neighbourhood b n.state) rest v with
        | none => rw [hps] at h; exact absurd h (by simp)
        | some pr =>
          obtain ⟨q', v'⟩ := pr
          rw [hps] at h
          exact ih q' (done ++ [n]) v'
            (bfs_inv_step inv (by simpa using hs) hps) t moves h

/-- The invariant holds at the start of `solve_puzzle`. -/
theorem searchInv_init (b : Board) (s0 : SState) :
    SearchInv b s0 [⟨s0, []⟩] [] visInit := by
  constructor
  · intro x hx
    simp only [List.append_nil, List.mem_singleton] at hx
    rw [hx]
    exact pathOk_nil_iff.mpr rfl
  · simp
  · intro a ha c hc
    simp only [List.mem_singleton] at ha hc
    rw [ha, hc]
    omega
  · intro nd hnd; exact absurd hnd (by simp)
  · intro nd hnd; exact absurd hnd (by simp)
  · intro nd hnd; exact absurd hnd (by simp)
  · intro sst hs; exact absurd hs (by simp [visInit])
  · exact ⟨⟨s0, []⟩, by simp, rfl, rfl⟩

/-- Claim C1: whenever `solve_puzzle` returns a solution, the returned
move list is a legal move sequence from the initial state to the returned
terminal state, the terminal state satisfies the goal test, and no move
sequence reaching any goal-satisfying state is shorter. -/
theorem solve_puzzle_optimal (b : Board) (s0 : SState) (fuel : Nat) (t : SState)
    (moves : List SMove) (h : solve_puzzle b s0 fuel = .solved t moves) :
    pathOk b s0 moves t = true ∧ solFound b t = true ∧
      ∀ ms u, pathOk b s0 ms u = true → solFound b u = true →
        moves.length ≤ ms.length :=
  bfs_min fuel [⟨s0, []⟩] [] visInit (searchInv_init b s0) t moves h

/-- Witness for C1 at a concrete input: the two-move solution on
`exBoard` is no longer than a concrete three-move alternative solution. -/
theorem solve_puzzle_optimal_witness :
    solve_puzzle exBoard exState 20 =
        .solved ⟨0, 1, 17, 1⟩ [(.Main, .Right), (.Main, .Left)] ∧
      ([((.Main : PieceType), (.Right : Direction)), (.Main, .Left)] : List SMove).length ≤
        ([((.Main : PieceType), (.Right : Direction)), (.HelperTwo, .Right),
          (.Main, .Left)] : List SMove).length :=
  ⟨by decide,
    (solve_puzzle_optimal exBoard exState 20 ⟨0, 1, 17, 1⟩
        [(.Main, .Right), (.Main, .Left)] (by decide)).2.2
      [(.Main, .Right), (.HelperTwo, .Right), (.Main, .Left)] ⟨0, 1, 33, 1⟩
      (by decide) (by decide)⟩

/-! ## Visited-set accounting (claim C4) -/

theorem pushSuccLog_nodup (par : Node) :
    ∀ pairs (q : List Node) (v : Vis) (log : List SState) q' v' log',
      pushSuccLog par pairs q v log = some (q', v', log') →
      log.Nodup → (∀ s ∈ log, v s = true) →
      log'.Nodup ∧ (∀ s ∈ log', v' s = true) := by
  intro pairs
  induction pairs with
  | nil =>
    intro q v log q' v' log' h hnd hcov
    simp only [pushSuccLog, Option.some.injEq, Prod.mk.injEq] at h
    obtain ⟨hq, hv, hlog⟩ := h
    subst hq; subst hv; subst hlog
    exact ⟨hnd, hcov⟩
  | cons p tl ih =>
    intro q v log q' v' log' h hnd hcov
    obtain ⟨mv, sst⟩ := p
    simp only [pushSuccLog] at h
    cases hg : visGet v sst with
    | none => rw [hg] at h; exact absurd h (by simp)
    | some bb =>
      rw [hg] at h
      have hvs : v sst = bb := by
        unfold visGet at hg
        split at hg
        · exact (Option.some.injEq _ _).mp hg
        · exact absurd hg (by simp)
      cases bb with
      | true => exact ih q v log q' v' log' h hnd hcov
      | false =>
        refine ih _ _ _ q' v' log' h ?_ ?_
        · refine List.nodup_append.mpr ⟨hnd, by simp, ?_⟩
          intro a ha hb
          simp only [List.mem_singleton] at hb
          subst hb
          rw [hcov a ha] at hvs
          exact Bool.noConfusion hvs
        · intro a ha
          rcases List.mem_append.mp ha with ha | ha
          · have := hcov a ha
            unfold vUpd
            by_cases hss : a = sst <;> simp [hss, this]
          · simp only [List.mem_singleton] at ha
            subst ha
            simp [vUpd]

theorem bfsLog_nodup_aux {b : Board} :
    ∀ fuel (q : List Node) (v : Vis) (log : List SState),
      log.Nodup → (∀ s ∈ log, v s = true) → (bfsLog b fuel q v log).Nodup := by
  intro fuel
  induction fuel with
  | zero => intro q v log hnd _; exact hnd
  | succ k ih =>
    intro q v log hnd hcov
    cases q with
    | nil => exact hnd
    | cons n rest =>
      simp only [bfsLog]
      by_cases hs : solFound b n.state
      · simp only [hs, if_true]
        exact hnd
      · simp only [hs, Bool.false_eq_true, if_false]
        cases hps : pushSuccLog n (neighbourhood b n.state) rest v log with
        | none => exact hnd
        | some pr =>
          obtain ⟨q', v', log'⟩ := pr
          obtain ⟨hnd', hcov'⟩ :=
            pushSuccLog_nodup n (neighbourhood b n.state) rest v log q' v' log'
              hps hnd hcov
          exact ih q' v' log' hnd' hcov'

/-- Counterexample to C4 as stated: on `encBoard` the search runs to
completion (reporting unsolvable), the initial state is dequeued during
the search, yet the visited table starts all-false — it does not contain
the initial state — and the run's insertion log is empty, so the initial
state is inserted zero times, not exactly once. -/
theorem visited_init_empty_cex :
    solve_puzzle encBoard encState 2 = .unsolvable ∧
      bfsLog encBoard 2 [⟨encState, []⟩] visInit [] = [] ∧
      visInit encState = false := by
  refine ⟨by decide, by decide, rfl⟩

/-- C4 amended: the visited table is initialized all-false (the initial
state is not pre-inserted), and during any run no state is ever inserted
twice: the run's insertion log has no duplicates.  A successor is
inserted exactly when it is first enqueued. -/
theorem visited_inserted_at_most_once (b : Board) (s0 : SState) (fuel : Nat) :
    visInit s0 = false ∧ (bfsLog b fuel [⟨s0, []⟩] visInit []).Nodup :=
  ⟨rfl, bfsLog_nodup_aux fuel [⟨s0, []⟩] visInit [] (by simp) (by simp)⟩

/-! ## In-bounds preservation and the absence of panics -/

theorem mem_univ160 {s : SState} : s ∈ univ160 ↔ visIdxOk s := by
  unfold univ160 visIdxOk
  simp only [Finset.mem_image, Finset.mem_product, Finset.mem_range]
  constructor
  · rintro ⟨⟨a, bb, c, dd⟩, ⟨ha, hb, hc, hd⟩, rfl⟩
    exact ⟨ha, hb, hc, hd⟩
  · rintro ⟨ha, hb, hc, hd⟩
    exact ⟨(s.m, s.h1, s.h2, s.fl), ⟨ha, hb, hc, hd⟩, rfl⟩

theorem posInBoard_lt256 {b : Board} {p : Nat} (hW : boardW b ≤ 16)
    (h : posInBoard b p) : p < 256 := by
  obtain ⟨hx, _⟩ := h
  simp only [pos_to_x] at hx
  omega

theorem posInBoard_lt160 {b : Board} {p : Nat} (hW : boardW b ≤ 10)
    (h : posInBoard b p) : p < 160 := by
  obtain ⟨hx, _⟩ := h
  simp only [pos_to_x, pos_to_y] at hx
  omega

theorem visIdxOk_of_inBounds {b : Board} {st : SState} (hW : boardW b ≤ 10)
    (h : inBoundsSt b st) : visIdxOk st := by
  obtain ⟨h1, h2, h3, h4⟩ := h
  exact ⟨posInBoard_lt160 hW h1, posInBoard_lt160 hW h2,
    posInBoard_lt160 hW h3, h4⟩

/-- For boards at most 16 cells in each dimension a legal unit step stays
on the board (no `u8` wrap can occur). -/
theorem tryMove_posInBoard {b : Board} {st : SState} {d : Direction} {p q : Nat}
    (hW : boardW b ≤ 16) (hH : b.length ≤ 16)
    (hp : posInBoard b p) (hpb : p < 256) (h : tryMove b st d p = some q) :
    posInBoard b q := by
  obtain ⟨hx, hy⟩ := hp
  obtain ⟨hq, hqb, _, hup, hleft, hdown, hright⟩ := tryMove_char hpb h
  subst hq
  cases d with
  | Up =>
    have := hup rfl
    simp only [posInBoard, pos_to_x, pos_to_y, delta] at *
    constructor <;> omega
  | Down =>
    have := hdown rfl
    simp only [posInBoard, pos_to_x, pos_to_y, delta] at *
    constructor <;> omega
  | Left =>
    have := hleft rfl
    simp only [posInBoard, pos_to_x, pos_to_y, delta] at *
    constructor <;> omega
  | Right =>
    have := hright rfl
    simp only [posInBoard, pos_to_x, pos_to_y, delta] at *
    constructor <;> omega

theorem nextPosition_posInBoard {b : Board} {st : SState} {d : Direction}
    {p r : Nat} (hW : boardW b ≤ 16) (hH : b.length ≤ 16)
    (hp : posInBoard b p) (hpb : p < 256)
    (h : nextPosition b st p d = some r) : posInBoard b r := by
  unfold nextPosition at h
  cases h1 : tryMove b st d p with
  | none => rw [h1] at h; exact absurd h (by simp)
  | some p1 =>
    rw [h1] at h
    simp only [Option.some.injEq] at h
    subst h
    have hP := @slideAux_inv b st d
      (fun x => posInBoard b x ∧ x < 256)
      (fun a x ⟨hab, hal⟩ hx =>
        ⟨tryMove_posInBoard hW hH hab hal hx,
         (tryMove_char hal hx).2.1⟩)
      256 p1
      ⟨tryMove_posInBoard hW hH hp hpb h1, (tryMove_char hpb h1).2.1⟩
    exact hP.1

/-- `move_piece` keeps states in bounds on boards at most 16 × 16. -/
theorem move_piece_inBounds {b : Board} {st : SState} {pc : PieceType}
    {d : Direction} {t : SState} (hW : boardW b ≤ 16) (hH : b.length ≤ 16)
    (hst : inBoundsSt b st) (h : move_piece b st pc d = some t) :
    inBoundsSt b t := by
  obtain ⟨h1, h2, h3, h4⟩ := hst
  have hpp : posInBoard b (piecePos st pc) := by
    cases pc <;> simpa [piecePos]
  have hppb : piecePos st pc < 256 := posInBoard_lt256 hW hpp
  obtain ⟨r, hr, hMain, hH1, hH2⟩ := move_piece_some_next h
  have hrb : posInBoard b r := nextPosition_posInBoard hW hH hpp hppb hr
  cases pc with
  | Main =>
    rw [hMain rfl]
    refine ⟨hrb, h2, h3, ?_⟩
    split <;> simp
  | HelperOne =>
    rw [hH1 rfl]
    exact ⟨h1, hrb, h3, h4⟩
  | HelperTwo =>
    rw [hH2 rfl]
    exact ⟨h1, h2, hrb, h4⟩

/-- The push loop cannot hit the out-of-bounds panic when every successor
state indexes the table in bounds. -/
theorem pushSucc_isSome (par : Node) :
    ∀ pairs (q : List Node) (v : Vis),
      (∀ mv t, (mv, t) ∈ pairs → visIdxOk t) →
      ∃ r, pushSucc par pairs q v = some r := by
  intro pairs
  induction pairs with
  | nil => intro q v _; exact ⟨(q, v), rfl⟩
  | cons p tl ih =>
    intro q v hok
    obtain ⟨mv, sst⟩ := p
    have hso : visIdxOk sst := hok mv sst (by simp)
    simp only [pushSucc]
    rw [show visGet v sst = some (v sst) from by simp [visGet, hso]]
    have hok' : ∀ mv t, (mv, t) ∈ tl → visIdxOk t :=
      fun mv t hmem => hok mv t (by simp [hmem])
    cases hvs : v sst with
    | true => exact ih q v hok'
    | false => exact ih _ _ hok'

/-- On a board of width at most 10 and height at most 16, starting from an
in-bounds queue, the BFS loop never panics. -/
theorem bfsAux_no_panic {b : Board} (hW : boardW b ≤ 10) (hH : b.length ≤ 16) :
    ∀ fuel (q : List Node) (v : Vis),
      (∀ n ∈ q, inBoundsSt b n.state) →
      bfsAux b fuel q v ≠ .panic := by
  have hW16 : boardW b ≤ 16 := by omega
  intro fuel
  induction fuel with
  | zero => intro q v _; simp [bfsAux]
  | succ k ih =>
    intro q v hq
    cases q with
    | nil => simp [bfsAux]
    | cons n rest =>
      simp only [bfsAux]
      by_cases hs : solFound b n.state
      · simp [hs]
      · simp only [hs, Bool.false_eq_true, if_false]
        have hnin : inBoundsSt b n.state := hq n (by simp)
        have hsuccok : ∀ mv t, (mv, t) ∈ neighbourhood b n.state → visIdxOk t := by
          intro mv t hmem
          have hmp := mem_neighbourhood_iff.mp hmem
          exact visIdxOk_of_inBounds hW (move_piece_inBounds hW16 hH hnin hmp)
        obtain ⟨⟨q', v'⟩, hps⟩ :=
          pushSucc_isSome n (neighbourhood b n.state) rest v hsuccok
        rw [hps]
        obtain ⟨added, haq, hchar, _, _, _, _, _⟩ :=
          pushSucc_spec n _ rest v q' v' hps
        subst haq
        apply ih
        intro x hx
        rcases List.mem_append.mp hx with hx | hx
        · exact hq x (by simp [hx])
        · obtain ⟨mv, t, hmem, hc'⟩ := hchar x hx
          rw [hc']
          exact move_piece_inBounds hW16 hH hnin (mem_neighbourhood_iff.mp hmem)

/-! ## Termination of the BFS loop -/

set_option maxRecDepth 4096 in
/-- Marking the freshly-added states removes exactly `added.length`
elements from the unvisited part of the table. -/
theorem uCount_after_push {v v' : Vis} {added : List Node}
    (hiff : ∀ s, v' s = true ↔ (v s = true ∨ ∃ c ∈ added, c.state = s))
    (hfresh : ∀ c ∈ added, v c.state = false)
    (hok : ∀ c ∈ added, visIdxOk c.state)
    (hnd : (added.map Node.state).Nodup) :
    uCount v' + added.length = uCount v := by
  classical
  set A : Finset SState := (added.map Node.state).toFinset with hA
  have hAmem : ∀ s, s ∈ A ↔ ∃ c ∈ added, c.state = s := by
    intro s
    simp [hA, List.mem_toFinset, List.mem_map, eq_comm]
  have hAcard : A.card = added.length := by
    rw [hA, List.toFinset_card_of_nodup hnd, List.length_map]
  have hsub : A ⊆ univ160.filter (fun s => v s = false) := by
    intro s hs
    obtain ⟨c, hc, hcs⟩ := (hAmem s).mp hs
    rw [Finset.mem_filter, mem_univ160]
    exact ⟨hcs ▸ hok c hc, hcs ▸ hfresh c hc⟩
  have hset : univ160.filter (fun s => v' s = false) =
      (univ160.filter (fun s => v s = false)) \ A := by
    ext s
    simp only [Finset.mem_filter, Finset.mem_sdiff, hAmem s]
    constructor
    · intro ⟨hu, hf⟩
      have hnv : ¬ (v s = true ∨ ∃ c ∈ added, c.state = s) := by
        intro hcon
        rw [(hiff s).mpr hcon] at hf
        exact Bool.noConfusion hf
      refine ⟨⟨hu, ?_⟩, fun hcon => hnv (Or.inr hcon)⟩
      cases hvv : v s
      · rfl
      · exact (hnv (Or.inl hvv)).elim
    · intro ⟨⟨hu, hf⟩, hnmem⟩
      refine ⟨hu, ?_⟩
      cases hvv : v' s
      · rfl
      · rcases (hiff s).mp hvv with hcon | hcon
        · rw [hcon] at hf; exact Bool.noConfusion hf
        · exact absurd hcon hnmem
  unfold uCount
  rw [hset, Finset.card_sdiff hsub, hAcard]
  have := Finset.card_le_card hsub
  omega

/-- With fuel exceeding twice the number of unvisited table slots plus
the queue length, the BFS loop reaches a verdict: solved or unsolvable. -/
theorem bfsAux_settles {b : Board} (hW : boardW b ≤ 10) (hH : b.length ≤ 16) :
    ∀ fuel (q : List Node) (v : Vis),
      (∀ n ∈ q, inBoundsSt b n.state) →
      2 * uCount v + q.length < fuel →
      (∃ t m, bfsAux b fuel q v = .solved t m) ∨ bfsAux b fuel q v = .unsolvable := by
  have hW16 : boardW b ≤ 16 := by omega
  intro fuel
  induction fuel with
  | zero => intro q v _ hm; omega
  | succ k ih =>
    intro q v hq hm
    cases q with
    | nil => right; simp [bfsAux]
    | cons n rest =>
      simp only [bfsAux]
      by_cases hs : solFound b n.state
      · left
        exact ⟨n.state, n.path, by simp [hs]⟩
      · simp only [hs, Bool.false_eq_true, if_false]
        have hnin : inBoundsSt b n.state := hq n (by simp)
        have hsuccok : ∀ mv t, (mv, t) ∈ neighbourhood b n.state → visIdxOk t := by
          intro mv t hmem
          have hmp := mem_neighbourhood_iff.mp hmem
          exact visIdxOk_of_inBounds hW (move_piece_inBounds hW16 hH hnin hmp)
        obtain ⟨⟨q', v'⟩, hps⟩ :=
          pushSucc_isSome n (neighbourhood b n.state) rest v hsuccok
        rw [hps]
        obtain ⟨added, haq, hchar, hiff, _, _, hfresh, hnd⟩ :=
          pushSucc_spec n _ rest v q' v' hps
        subst haq
        have hok : ∀ c ∈ added, visIdxOk c.state := by
          intro c hc
          obtain ⟨mv, t, hmem, hc'⟩ := hchar c hc
          rw [hc']
          exact hsuccok mv t hmem
        have hcount := uCount_after_push hiff hfresh hok hnd
        apply ih
        · intro x hx
          rcases List.mem_append.mp hx with hx | hx
          · exact hq x (by simp [hx])
          · obtain ⟨mv, t, hmem, hc'⟩ := hchar x hx
            rw [hc']
            exact move_piece_inBounds hW16 hH hnin (mem_neighbourhood_iff.mp hmem)
        · simp only [List.length_append, List.length_cons] at hm ⊢
          omega

/-! ## Claims C6, C7, C9: termination, outcomes, visited-table bounds -/

/-- On `wideBoard` the very first expansion hits table index `160`: the
run panics at any positive fuel, independent of the fuel. -/
theorem wide_run_panics (fuel : Nat) :
    solve_puzzle wideBoard wideState (fuel + 1) = .panic := rfl

/-- Counterexample to C6 as stated: termination with a solved/unsolvable
verdict does not hold on every finite board with an in-bounds initial
state — on the 11-wide board the run panics instead (the claim's
conclusion fails for every fuel). -/
theorem solve_terminates_cex :
    ¬ (∀ (b : Board) (s : SState), inBoundsSt b s →
        ∃ fuel, (∃ t m, solve_puzzle b s fuel = .solved t m) ∨
          solve_puzzle b s fuel = .unsolvable) := by
  intro hall
  obtain ⟨fuel, hc⟩ := hall wideBoard wideState (by decide)
  cases fuel with
  | zero =>
    rcases hc with ⟨t, m, h⟩ | h <;> exact absurd h (by simp [solve_puzzle, bfsAux])
  | succ k =>
    rw [wide_run_panics k] at hc
    rcases hc with ⟨t, m, h⟩ | h <;> exact BfsRes.noConfusion h

/-- C6 (amended): on boards of width at most 10 and height at most 16,
from an in-bounds initial state, the search terminates with a verdict:
some fuel yields either a solution or the explicit no-solution result. -/
theorem solve_puzzle_terminates (b : Board) (s : SState) (hW : boardW b ≤ 10)
    (hH : b.length ≤ 16) (hs : inBoundsSt b s) :
    ∃ fuel, (∃ t m, solve_puzzle b s fuel = .solved t m) ∨
      solve_puzzle b s fuel = .unsolvable := by
  refine ⟨2 * uCount visInit + 2, ?_⟩
  exact bfsAux_settles hW hH _ [⟨s, []⟩] visInit
    (by intro n hn; simp only [List.mem_singleton] at hn; rw [hn]; exact hs)
    (by simp only [List.length_singleton]; omega)

/-- Witness for the amended C6 at a concrete input. -/
theorem solve_puzzle_terminates_witness :
    (boardW exBoard ≤ 10 ∧ exBoard.length ≤ 16 ∧ inBoundsSt exBoard exState) ∧
      (∃ fuel, (∃ t m, solve_puzzle exBoard exState fuel = .solved t m) ∨
        solve_puzzle exBoard exState fuel = .unsolvable) :=
  ⟨⟨by decide, by decide, by decide⟩,
    solve_puzzle_terminates exBoard exState (by decide) (by decide) (by decide)⟩

/-- Counterexample to C7 as stated: the dense-table solver has a third
outcome — on `wideBoard` it panics rather than returning a solution or
the no-solution result (and its success value carries no visited
count). -/
theorem solve_outcome_cex : solve_puzzle wideBoard wideState 5 = .panic := by
  decide

/-- C7 (amended): within the bounds that exclude the table panic, the
search has exactly the two outcomes: a solution — the ordered move list
together with the terminal state, which is a legal move sequence from the
initial state ending in a goal-satisfying state — or the explicit
no-solution result.  (Only the `main.rs` solver additionally returns the
visited count; `solver.rs` returns board, state and moves only.) -/
theorem solve_puzzle_outcomes (b : Board) (s : SState) (hW : boardW b ≤ 10)
    (hH : b.length ≤ 16) (hs : inBoundsSt b s) :
    ∃ fuel, (∃ t m, solve_puzzle b s fuel = .solved t m ∧
        pathOk b s m t = true ∧ solFound b t = true) ∨
      solve_puzzle b s fuel = .unsolvable := by
  refine ⟨2 * uCount visInit + 2, ?_⟩
  have hset := bfsAux_settles hW hH (2 * uCount visInit + 2) [⟨s, []⟩] visInit
    (by intro n hn; simp only [List.mem_singleton] at hn; rw [hn]; exact hs)
    (by simp only [List.length_singleton]; omega)
  rcases hset with ⟨t, m, h⟩ | h
  · left
    have hmin := @bfs_min b s (2 * uCount visInit + 2) [⟨s, []⟩] []
      visInit (searchInv_init b s) t m h
    exact ⟨t, m, h, hmin.1, hmin.2.1⟩
  · right
    exact h

/-- Witness for the amended C7 at a concrete input. -/
theorem solve_puzzle_outcomes_witness :
    (boardW exBoard ≤ 10 ∧ exBoard.length ≤ 16 ∧ inBoundsSt exBoard exState) ∧
      (∃ fuel, (∃ t m, solve_puzzle exBoard exState fuel = .solved t m ∧
          pathOk exBoard exState m t = true ∧ solFound exBoard t = true) ∨
        solve_puzzle exBoard exState fuel = .unsolvable) :=
  ⟨⟨by decide, by decide, by decide⟩,
    solve_puzzle_outcomes exBoard exState (by decide) (by decide) (by decide)⟩

/-- Counterexample to C9 as stated: `wideBoard` is within the claimed
`W, H ≤ 16` bound and the state reached by one legal move keeps all
coordinates inside `[0, W) × [0, H)`, yet its packed main position `160`
overruns the `160`-wide visited-table axis. -/
theorem visited_index_bounds_cex :
    boardW wideBoard ≤ 16 ∧ wideBoard.length ≤ 16 ∧
      inBoundsSt wideBoard wideState ∧
      ((PieceType.Main, Direction.Right), (⟨160, 0, 16, 0⟩ : SState)) ∈
        neighbourhood wideBoard wideState ∧
      inBoundsSt wideBoard ⟨160, 0, 16, 0⟩ ∧ ¬ visIdxOk ⟨160, 0, 16, 0⟩ := by
  decide

/-- C9 (amended): for boards of width at most 10 and height at most 16
every state the search ever looks up in the visited table is in bounds —
the run can never reach the panic outcome. -/
theorem solve_puzzle_no_panic (b : Board) (s : SState) (hW : boardW b ≤ 10)
    (hH : b.length ≤ 16) (hs : inBoundsSt b s) (fuel : Nat) :
    solve_puzzle b s fuel ≠ .panic :=
  bfsAux_no_panic hW hH fuel [⟨s, []⟩] visInit
    (by intro n hn; simp only [List.mem_singleton] at hn; rw [hn]; exact hs)

/-- Witness for the amended C9 at a concrete input. -/
theorem solve_puzzle_no_panic_witness :
    (boardW exBoard ≤ 10 ∧ exBoard.length ≤ 16 ∧ inBoundsSt exBoard exState) ∧
      solve_puzzle exBoard exState 5 ≠ .panic :=
  ⟨⟨by decide, by decide, by decide⟩,
    solve_puzzle_no_panic exBoard exState (by decide) (by decide) (by decide) 5⟩

end Solver

namespace MainRs

open Solver (Direction PieceType SMove)

/-! ## Step correspondence between the two solvers -/

theorem boardW_eq8 {bm : BoardM} {bs : Solver.Board} (hb : boardRel bm bs) :
    Solver.boardW bs = 8 := by
  obtain ⟨_, _, hslen, hsrows, _⟩ := hb
  unfold Solver.boardW
  cases bs with
  | nil => simp at hslen
  | cons r0 rest => exact hsrows r0 (by simp)

theorem cellAtM_restricted {bm : BoardM} (hres : cellsRestricted bm)
    (x y : Int) : cellAtM bm x y ≠ CellM.Helper ∧ cellAtM bm x y ≠ CellM.Main := by
  unfold cellAtM
  rcases Nat.lt_or_ge y.toNat bm.length with hy | hy
  · have hrow : bm.getD y.toNat [] ∈ bm := by
      rw [List.getD_eq_getElem _ _ hy]
      exact List.getElem_mem hy
    rcases Nat.lt_or_ge x.toNat (bm.getD y.toNat []).length with hx | hx
    · have hc : (bm.getD y.toNat []).getD x.toNat .Empty ∈ bm.getD y.toNat [] := by
        rw [List.getD_eq_getElem _ _ hx]
        exact List.getElem_mem hx
      exact hres _ hrow _ hc
    · rw [List.getD_eq_default _ _ hx]
      exact ⟨fun h => CellM.noConfusion h, fun h => CellM.noConfusion h⟩
  · rw [List.getD_eq_default _ _ hy]
    simp only [List.getD_nil]
    exact ⟨fun h => CellM.noConfusion h, fun h => CellM.noConfusion h⟩

theorem packP_decode_x {x y : Int} (h : inb8 x y) :
    Solver.pos_to_x (packP x y) = x.toNat := by
  obtain ⟨h1, h2, h3, h4⟩ := h
  unfold Solver.pos_to_x packP
  omega

theorem packP_decode_y {x y : Int} (h : inb8 x y) :
    Solver.pos_to_y (packP x y) = y.toNat := by
  obtain ⟨h1, h2, h3, h4⟩ := h
  unfold Solver.pos_to_y packP
  omega

theorem packP_inj_iff {x y a c : Int} (h1 : inb8 x y) (h2 : inb8 a c) :
    packP x y = packP a c ↔ (a = x ∧ c = y) := by
  obtain ⟨_, _, _, _⟩ := h1
  obtain ⟨_, _, _, _⟩ := h2
  unfold packP
  omega

theorem xy_to_pos_packP {x y : Int} (h : inb8 x y) :
    Solver.xy_to_pos x.toNat y.toNat = packP x y := by
  obtain ⟨_, _, _, _⟩ := h
  unfold Solver.xy_to_pos packP
  omega

theorem cellS_of_cellM {bm : BoardM} {bs : Solver.Board} (hb : boardRel bm bs)
    {x y : Int} (h : inb8 x y) :
    Solver.cellAt bs x.toNat y.toNat = mapCell (cellAtM bm x y) := by
  obtain ⟨_, _, _, _, hcell⟩ := hb
  obtain ⟨h1, h2, h3, h4⟩ := h
  have := hcell x.toNat (by omega) y.toNat (by omega)
  rwa [Int.toNat_of_nonneg h1, Int.toNat_of_nonneg h3] at this

theorem mapCell_blocker_iff (c : CellM) :
    mapCell c = Solver.BoardPiece.Blocker ↔ c = CellM.Blocker := by
  cases c <;> simp [mapCell]

/-- The validate-and-pack core shared by the four directions: given
corresponding boards, a restricted `main.rs` board, an in-bounds state
and an in-bounds stepped position, the tail of `solver.rs`'s `try_move`
(cell test then occupancy test on the packed position) agrees with the
tail of `main.rs`'s `try_move`. -/
theorem tryMove_corr_core {bm : BoardM} {bs : Solver.Board} {ms : MState}
    (hb : boardRel bm bs) (hres : cellsRestricted bm) (hin : mInb ms)
    {x' y' : Int} (hxy' : inb8 x' y') :
    (match Solver.cellAt bs x'.toNat y'.toNat with
      | .Blocker => none
      | _ =>
        if Solver.xy_to_pos x'.toNat y'.toNat = (packSt ms).m ∨
            Solver.xy_to_pos x'.toNat y'.toNat = (packSt ms).h1 ∨
            Solver.xy_to_pos x'.toNat y'.toNat = (packSt ms).h2 then none
        else some (Solver.xy_to_pos x'.toNat y'.toNat)) =
      Option.map (fun p : Int × Int => packP p.1 p.2)
        (match cellAtM bm x' y' with
          | .Blocker => none
          | .Helper => none
          | .Main => none
          | _ =>
            if (ms.x0 = x' ∧ ms.y0 = y') ∨ (ms.x1 = x' ∧ ms.y1 = y')
                ∨ (ms.x2 = x' ∧ ms.y2 = y') then none
            else some (x', y')) := by
  obtain ⟨hin0, hin1, hin2⟩ := hin
  have hcell := cellS_of_cellM hb hxy'
  have hocc : (Solver.xy_to_pos x'.toNat y'.toNat = (packSt ms).m ∨
      Solver.xy_to_pos x'.toNat y'.toNat = (packSt ms).h1 ∨
      Solver.xy_to_pos x'.toNat y'.toNat = (packSt ms).h2) ↔
      ((ms.x0 = x' ∧ ms.y0 = y') ∨ (ms.x1 = x' ∧ ms.y1 = y')
        ∨ (ms.x2 = x' ∧ ms.y2 = y')) := by
    rw [xy_to_pos_packP hxy']
    unfold packSt
    simp only
    rw [packP_inj_iff hxy' hin0, packP_inj_iff hxy' hin1, packP_inj_iff hxy' hin2]
  have hrest := cellAtM_restricted hres x' y'
  rw [hcell]
  cases hc : cellAtM bm x' y' with
  | Blocker => simp [mapCell]
  | Helper => exact absurd hc (by simpa using hrest.1)
  | Main => exact absurd hc (by simpa using hrest.2)
  | Start =>
    simp only [mapCell]
    by_cases ho : (ms.x0 = x' ∧ ms.y0 = y') ∨ (ms.x1 = x' ∧ ms.y1 = y')
        ∨ (ms.x2 = x' ∧ ms.y2 = y')
    · rw [if_pos (hocc.mpr ho), if_pos ho]
      rfl
    · rw [if_neg (fun hcon => ho (hocc.mp hcon)), if_neg ho]
      simp [xy_to_pos_packP hxy']
  | Goal =>
    simp only [mapCell]
    by_cases ho : (ms.x0 = x' ∧ ms.y0 = y') ∨ (ms.x1 = x' ∧ ms.y1 = y')
        ∨ (ms.x2 = x' ∧ ms.y2 = y')
    · rw [if_pos (hocc.mpr ho), if_pos ho]
      rfl
    · rw [if_neg (fun hcon => ho (hocc.mp hcon)), if_neg ho]
      simp [xy_to_pos_packP hxy']
  | Empty =>
    simp only [mapCell]
    by_cases ho : (ms.x0 = x' ∧ ms.y0 = y') ∨ (ms.x1 = x' ∧ ms.y1 = y')
        ∨ (ms.x2 = x' ∧ ms.y2 = y')
    · rw [if_pos (hocc.mpr ho), if_pos ho]
      rfl
    · rw [if_neg (fun hcon => ho (hocc.mp hcon)), if_neg ho]
      simp [xy_to_pos_packP hxy']

end MainRs

namespace MainRs

open Solver (Direction PieceType SMove)

/-- One unit step agrees between the two solvers: `solver.rs`'s
`try_move` (which steps and validates) equals `main.rs`'s `try_move`
applied to the stepped position, under the packing correspondence. -/
theorem tryMove_corr {bm : BoardM} {bs : Solver.Board} {ms : MState}
    (hb : boardRel bm bs) (hres : cellsRestricted bm) (hin : mInb ms)
    {x y : Int} (hxy : inb8 x y) (d : Direction) :
    Solver.tryMove bs (packSt ms) d (packP x y) =
      Option.map (fun p : Int × Int => packP p.1 p.2)
        (try_moveM (stepM (x, y) d) bm ms) := by
  have hW := boardW_eq8 hb
  have hlen : bs.length = 8 := hb.2.2.1
  have hxy' := hxy
  obtain ⟨hx0, hx8, hy0, hy8⟩ := hxy'
  cases d with
  | Up =>
    simp only [stepM]
    by_cases h0 : y = 0
    · subst h0
      rw [show try_moveM (x, (0 : Int) - 1) bm ms = none from by
        unfold try_moveM
        rw [if_pos]
        dsimp only
        omega]
      show Solver.tryMove bs (packSt ms) .Up (packP x 0) = none
      unfold Solver.tryMove
      rw [if_pos]
      left
      exact ⟨by rw [packP_decode_y hxy]; rfl, rfl⟩
    · unfold Solver.tryMove
      rw [if_neg (by
        simp only [packP_decode_x hxy, packP_decode_y hxy, not_or]
        refine ⟨?_, ?_, ?_, ?_⟩ <;> rintro ⟨h1, h2⟩ <;>
          first
          | exact Direction.noConfusion h2
          | omega)]
      unfold try_moveM
      rw [if_neg (by dsimp only; omega)]
      simp only [packP_decode_x hxy, packP_decode_y hxy]
      rw [show y.toNat - 1 = (y - 1).toNat from by omega]
      exact tryMove_corr_core hb hres hin ⟨hx0, hx8, by omega, by omega⟩
  | Down =>
    simp only [stepM]
    by_cases h0 : 7 ≤ y
    · rw [show try_moveM (x, y + 1) bm ms = none from by
        unfold try_moveM
        rw [if_pos]
        dsimp only
        omega]
      show Solver.tryMove bs (packSt ms) .Down (packP x y) = none
      unfold Solver.tryMove
      rw [if_pos]
      right; right; left
      exact ⟨by rw [packP_decode_y hxy, hlen]; omega, rfl⟩
    · unfold Solver.tryMove
      rw [if_neg (by
        simp only [packP_decode_x hxy, packP_decode_y hxy, hlen, not_or]
        refine ⟨?_, ?_, ?_, ?_⟩ <;> rintro ⟨h1, h2⟩ <;>
          first
          | exact Direction.noConfusion h2
          | omega)]
      unfold try_moveM
      rw [if_neg (by dsimp only; omega)]
      simp only [packP_decode_x hxy, packP_decode_y hxy]
      rw [show y.toNat + 1 = (y + 1).toNat from by omega]
      exact tryMove_corr_core hb hres hin ⟨hx0, hx8, by omega, by omega⟩
  | Left =>
    simp only [stepM]
    by_cases h0 : x = 0
    · subst h0
      rw [show try_moveM ((0 : Int) - 1, y) bm ms = none from by
        unfold try_moveM
        rw [if_pos]
        dsimp only
        omega]
      show Solver.tryMove bs (packSt ms) .Left (packP 0 y) = none
      unfold Solver.tryMove
      rw [if_pos]
      right; left
      exact ⟨by rw [packP_decode_x hxy]; rfl, rfl⟩
    · unfold Solver.tryMove
      rw [if_neg (by
        simp only [packP_decode_x hxy, packP_decode_y hxy, not_or]
        refine ⟨?_, ?_, ?_, ?_⟩ <;> rintro ⟨h1, h2⟩ <;>
          first
          | exact Direction.noConfusion h2
          | omega)]
      unfold try_moveM
      rw [if_neg (by dsimp only; omega)]
      simp only [packP_decode_x hxy, packP_decode_y hxy]
      rw [show x.toNat - 1 = (x - 1).toNat from by omega]
      exact tryMove_corr_core hb hres hin ⟨by omega, by omega, hy0, hy8⟩
  | Right =>
    simp only [stepM]
    by_cases h0 : 7 ≤ x
    · rw [show try_moveM (x + 1, y) bm ms = none from by
        unfold try_moveM
        rw [if_pos]
        dsimp only
        omega]
      show Solver.tryMove bs (packSt ms) .Right (packP x y) = none
      unfold Solver.tryMove
      rw [if_pos]
      right; right; right
      exact ⟨by rw [packP_decode_x hxy, hW]; omega, rfl⟩
    · unfold Solver.tryMove
      rw [if_neg (by
        simp only [packP_decode_x hxy, packP_decode_y hxy, hW, not_or]
        refine ⟨?_, ?_, ?_, ?_⟩ <;> rintro ⟨h1, h2⟩ <;>
          first
          | exact Direction.noConfusion h2
          | omega)]
      unfold try_moveM
      rw [if_neg (by dsimp only; omega)]
      simp only [packP_decode_x hxy, packP_decode_y hxy]
      rw [show x.toNat + 1 = (x + 1).toNat from by omega]
      exact tryMove_corr_core hb hres hin ⟨by omega, by omega, hy0, hy8⟩

end MainRs

namespace MainRs

open Solver (Direction PieceType SMove)

theorem try_moveM_some {bm : BoardM} {ms : MState} {p q : Int × Int}
    (h : try_moveM p bm ms = some q) : q = p ∧ inb8 p.1 p.2 := by
  unfold try_moveM at h
  split at h
  · exact absurd h (by simp)
  · rename_i hg
    have hinb : inb8 p.1 p.2 := by
      unfold inb8
      omega
    refine ⟨?_, hinb⟩
    split at h
    · exact absurd h (by simp)
    · exact absurd h (by simp)
    · exact absurd h (by simp)
    · split at h
      · exact absurd h (by simp)
      · exact ((Option.some.injEq _ _).mp h).symm

/-- Generic invariant preservation along the `main.rs` slide loop. -/
theorem slideM_inv {bm : BoardM} {ms : MState} {d : Direction}
    (P : Int × Int → Prop)
    (hstep : ∀ a q, P a → try_moveM (stepM a d) bm ms = some q → P q) :
    ∀ fuel p, P p → P (slideM bm ms d fuel p) := by
  intro fuel
  induction fuel with
  | zero => intro p hp; exact hp
  | succ n ih =>
    intro p hp
    simp only [slideM]
    cases h : try_moveM (stepM p d) bm ms with
    | none => exact hp
    | some q => exact ih q (hstep p q hp h)

theorem slide_corr {bm : BoardM} {bs : Solver.Board} {ms : MState}
    (hb : boardRel bm bs) (hres : cellsRestricted bm) (hin : mInb ms)
    (d : Direction) :
    ∀ fuel (p : Int × Int), inb8 p.1 p.2 →
      Solver.slideAux bs (packSt ms) d fuel (packP p.1 p.2) =
        packP (slideM bm ms d fuel p).1 (slideM bm ms d fuel p).2 := by
  intro fuel
  induction fuel with
  | zero => intro p _; rfl
  | succ n ih =>
    intro p hp
    simp only [Solver.slideAux, slideM]
    rw [show Solver.tryMove bs (packSt ms) d (packP p.1 p.2) =
        Option.map (fun p : Int × Int => packP p.1 p.2)
          (try_moveM (stepM (p.1, p.2) d) bm ms) from
      tryMove_corr hb hres hin hp d]
    cases hm : try_moveM (stepM (p.1, p.2) d) bm ms with
    | none => rfl
    | some q =>
      obtain ⟨hqp, _⟩ := try_moveM_some hm
      simp only [Option.map_some']
      have hqin : inb8 q.1 q.2 := by
        obtain ⟨hqp', hinb⟩ := try_moveM_some hm
        rw [hqp']
        exact hinb
      exact ih q hqin

theorem nextPosition_corr {bm : BoardM} {bs : Solver.Board} {ms : MState}
    (hb : boardRel bm bs) (hres : cellsRestricted bm) (hin : mInb ms)
    {x y : Int} (hxy : inb8 x y) (d : Direction) :
    Solver.nextPosition bs (packSt ms) (packP x y) d =
      Option.map (fun p : Int × Int => packP p.1 p.2)
        (next_positionM bm ms (x, y) d) := by
  unfold Solver.nextPosition next_positionM
  dsimp only
  rw [tryMove_corr hb hres hin hxy d]
  cases hm : try_moveM (stepM (x, y) d) bm ms with
  | none => rfl
  | some q =>
    simp only [Option.map_some']
    obtain ⟨hqp, hinb⟩ := try_moveM_some hm
    have := slide_corr hb hres hin d 256 (stepM (x, y) d) hinb
    rw [show packP (stepM (x, y) d).1 (stepM (x, y) d).2 = packP q.1 q.2 from by
      rw [hqp]] at this
    rw [this]

theorem mapCell_goal_iff (c : CellM) :
    mapCell c = Solver.BoardPiece.Goal ↔ c = CellM.Goal := by
  cases c <;> simp [mapCell]

theorem mapCell_start_iff (c : CellM) :
    mapCell c = Solver.BoardPiece.Start ↔ c = CellM.Start := by
  cases c <;> simp [mapCell]

theorem next_positionM_inb {bm : BoardM} {ms : MState} {p : Int × Int}
    {r : Int × Int} {d : Direction}
    (h : next_positionM bm ms p d = some r) : inb8 r.1 r.2 := by
  unfold next_positionM at h
  dsimp only at h
  cases hm : try_moveM (stepM p d) bm ms with
  | none => rw [hm] at h; exact absurd h (by simp)
  | some q =>
    rw [hm] at h
    simp only [Option.some.injEq] at h
    subst h
    obtain ⟨_, hinb⟩ := try_moveM_some hm
    exact slideM_inv (fun a => inb8 a.1 a.2)
      (fun a q' _ hq' => by
        obtain ⟨hq'', hinb'⟩ := try_moveM_some hq'
        rw [hq'']
        exact hinb') 256 (stepM p d) hinb

end MainRs

namespace MainRs

open Solver (Direction PieceType SMove)

theorem move_pieceM_inb {bm : BoardM} {ms : MState} {pc : PieceType}
    {d : Direction} {t : MState} (hin : mInb ms)
    (h : move_pieceM bm ms pc d = some t) : mInb t := by
  obtain ⟨hin0, hin1, hin2⟩ := hin
  cases pc <;>
    · unfold move_pieceM at h
      dsimp only at h
      cases hnp : next_positionM bm ms _ _ with
      | none => rw [hnp] at h; exact absurd h (by simp)
      | some r =>
        rw [hnp] at h
        simp only [Option.some.injEq] at h
        subst h
        have := next_positionM_inb hnp
        exact ⟨by assumption, by assumption, by assumption⟩

theorem move_piece_corr_eq {bm : BoardM} {bs : Solver.Board} {ms : MState}
    (hb : boardRel bm bs) (hres : cellsRestricted bm) (hin : mInb ms)
    (pc : PieceType) (d : Direction) :
    Solver.move_piece bs (packSt ms) pc d =
      Option.map packSt (move_pieceM bm ms pc d) := by
  cases pc with
  | Main =>
    rw [Solver.move_piece_eq]
    unfold move_pieceM
    dsimp only
    rw [show Solver.piecePos (packSt ms) PieceType.Main = packP ms.x0 ms.y0 from rfl]
    rw [nextPosition_corr hb hres hin hin.1 d]
    cases hnp : next_positionM bm ms (ms.x0, ms.y0) d with
    | none => rfl
    | some r =>
      simp only [Option.map_some']
      refine congrArg some ?_
      have hrin : inb8 r.1 r.2 := next_positionM_inb hnp
      have hcg : Solver.cellAt bs (Solver.pos_to_x (packP r.1 r.2))
          (Solver.pos_to_y (packP r.1 r.2)) = mapCell (cellAtM bm r.1 r.2) := by
        rw [packP_decode_x hrin, packP_decode_y hrin]
        exact cellS_of_cellM hb hrin
      show Solver.SState.mk _ _ _ _ = packSt _
      unfold packSt
      simp only [Solver.SState.mk.injEq, true_and]
      rw [hcg]
      cases hfl : ms.fl <;>
        by_cases hgoal : cellAtM bm r.1 r.2 = CellM.Goal <;>
          simp [hfl, hgoal, mapCell_goal_iff, packSt]
  | HelperOne =>
    rw [Solver.move_piece_eq]
    unfold move_pieceM
    dsimp only
    rw [show Solver.piecePos (packSt ms) PieceType.HelperOne = packP ms.x1 ms.y1 from rfl]
    rw [nextPosition_corr hb hres hin hin.2.1 d]
    cases hnp : next_positionM bm ms (ms.x1, ms.y1) d with
    | none => rfl
    | some r => rfl
  | HelperTwo =>
    rw [Solver.move_piece_eq]
    unfold move_pieceM
    dsimp only
    rw [show Solver.piecePos (packSt ms) PieceType.HelperTwo = packP ms.x2 ms.y2 from rfl]
    rw [nextPosition_corr hb hres hin hin.2.2 d]
    cases hnp : next_positionM bm ms (ms.x2, ms.y2) d with
    | none => rfl
    | some r => rfl

theorem fm_corr {bm : BoardM} {bs : Solver.Board} {ms : MState}
    (hb : boardRel bm bs) (hres : cellsRestricted bm) (hin : mInb ms)
    (pc : PieceType) :
    ∀ l : List Direction,
      l.filterMap (fun d => (Solver.move_piece bs (packSt ms) pc d).map
          (fun s' => ((pc, d), s'))) =
        (l.filterMap (fun d => (move_pieceM bm ms pc d).map
          (fun s' => ((pc, d), s')))).map (fun e => (e.1, packSt e.2)) := by
  intro l
  induction l with
  | nil => rfl
  | cons d tl ih =>
    simp only [List.filterMap_cons]
    rw [move_piece_corr_eq hb hres hin pc d]
    cases hm : move_pieceM bm ms pc d with
    | none => simpa using ih
    | some t => simp [ih]

theorem neighbourhood_corr {bm : BoardM} {bs : Solver.Board} {ms : MState}
    (hb : boardRel bm bs) (hres : cellsRestricted bm) (hin : mInb ms) :
    Solver.neighbourhood bs (packSt ms) =
      (neighbourhoodM bm ms).map (fun e => (e.1, packSt e.2)) := by
  unfold Solver.neighbourhood neighbourhoodM
  simp only [List.flatMap_cons, List.flatMap_nil, List.append_nil,
    List.map_append]
  rw [fm_corr hb hres hin .Main, fm_corr hb hres hin .HelperOne,
    fm_corr hb hres hin .HelperTwo]

theorem neighbourhoodM_inb {bm : BoardM} {ms : MState} (hin : mInb ms) :
    ∀ e ∈ neighbourhoodM bm ms, mInb e.2 := by
  intro e he
  unfold neighbourhoodM at he
  simp only [List.mem_flatMap, List.mem_filterMap, Option.map_eq_some'] at he
  obtain ⟨pc, _, d, _, t, hmp, het⟩ := he
  rw [← het]
  exact move_pieceM_inb hin hmp

theorem solFound_corr {bm : BoardM} {bs : Solver.Board} {ms : MState}
    (hb : boardRel bm bs) (hin : mInb ms) :
    Solver.solFound bs (packSt ms) = solFoundM bm ms := by
  unfold Solver.solFound solFoundM
  have hcg : Solver.cellAt bs (Solver.pos_to_x (packSt ms).m)
      (Solver.pos_to_y (packSt ms).m) = mapCell (cellAtM bm ms.x0 ms.y0) := by
    rw [show (packSt ms).m = packP ms.x0 ms.y0 from rfl,
      packP_decode_x hin.1, packP_decode_y hin.1]
    exact cellS_of_cellM hb hin.1
  rw [hcg]
  cases hfl : ms.fl <;>
    by_cases hst : cellAtM bm ms.x0 ms.y0 = CellM.Start <;>
      simp [hfl, hst, mapCell_start_iff, packSt]

end MainRs

namespace MainRs

open Solver (Direction PieceType SMove)

theorem packSt_inj {a c : MState} (ha : mInb a) (hc : mInb c)
    (h : packSt a = packSt c) : a = c := by
  obtain ⟨ha0, ha1, ha2⟩ := ha
  obtain ⟨hc0, hc1, hc2⟩ := hc
  unfold packSt at h
  simp only [Solver.SState.mk.injEq] at h
  obtain ⟨h0, h1, h2, h3⟩ := h
  have e0 := (packP_inj_iff ha0 hc0).mp h0
  have e1 := (packP_inj_iff ha1 hc1).mp h1
  have e2 := (packP_inj_iff ha2 hc2).mp h2
  have e3 : a.fl = c.fl := by
    cases hafl : a.fl <;> cases hcfl : c.fl <;> simp [hafl, hcfl] at h3 <;> rfl
  cases a; cases c
  simp_all

theorem packSt_idxOk {t : MState} (ht : mInb t) : Solver.visIdxOk (packSt t) := by
  obtain ⟨⟨_, _, _, _⟩, ⟨_, _, _, _⟩, ⟨_, _, _, _⟩⟩ := ht
  unfold Solver.visIdxOk packSt packP
  dsimp only
  refine ⟨by omega, by omega, by omega, ?_⟩
  split <;> omega

theorem visGet_corr {vis : Finset MState} {v : Solver.Vis} (hrel : visRel vis v)
    {t : MState} (ht : mInb t) :
    Solver.visGet v (packSt t) = some (decide (t ∈ vis)) := by
  obtain ⟨hmem, hiff⟩ := hrel
  unfold Solver.visGet
  rw [if_pos (packSt_idxOk ht)]
  refine congrArg some ?_
  by_cases hm : t ∈ vis
  · rw [(hiff (packSt t)).mpr ⟨t, hm, ht, rfl⟩]
    simp [hm]
  · have : v (packSt t) ≠ true := by
      intro hv
      obtain ⟨ms', hms', hinb', hpk⟩ := (hiff (packSt t)).mp hv
      exact hm (packSt_inj hinb' ht hpk ▸ hms')
    simp only [decide_eq_false hm]
    cases hvv : v (packSt t)
    · rfl
    · exact absurd hvv this

theorem pushSucc_corr :
    ∀ (pairsM : List (SMove × MState)) (qm : List (MState × List SMove))
      (vis : Finset MState) (v : Solver.Vis) (parN : Solver.Node)
      (parMoves : List SMove) (qm2 : List (MState × List SMove))
      (vis2 : Finset MState),
      parN.path = parMoves →
      visRel vis v → (∀ e ∈ pairsM, mInb e.2) → (∀ e ∈ qm, mInb e.1) →
      pushSuccM parMoves pairsM qm vis = (qm2, vis2) →
      ∃ v', Solver.pushSucc parN (pairsM.map (fun e => (e.1, packSt e.2)))
          (qm.map (fun e => ⟨packSt e.1, e.2⟩)) v =
            some (qm2.map (fun e => ⟨packSt e.1, e.2⟩), v') ∧
        visRel vis2 v' ∧ (∀ e ∈ qm2, mInb e.1) := by
  intro pairsM
  induction pairsM with
  | nil =>
    intro qm vis v parN parMoves qm2 vis2 hpath hrel hpin hqin hps
    simp only [pushSuccM, Prod.mk.injEq] at hps
    obtain ⟨hq, hv⟩ := hps
    subst hq; subst hv
    exact ⟨v, rfl, hrel, hqin⟩
  | cons p tl ih =>
    intro qm vis v parN parMoves qm2 vis2 hpath hrel hpin hqin hps
    obtain ⟨mv, t⟩ := p
    have htin : mInb t := hpin (mv, t) (by simp)
    have htl : ∀ e ∈ tl, mInb e.2 := fun e he => hpin e (by simp [he])
    simp only [pushSuccM] at hps
    simp only [List.map_cons, Solver.pushSucc]
    rw [visGet_corr hrel htin]
    by_cases hm : t ∈ vis
    · rw [if_pos hm] at hps
      rw [decide_eq_true hm]
      exact ih qm vis v parN parMoves qm2 vis2 hpath hrel htl hqin hps
    · rw [if_neg hm] at hps
      rw [decide_eq_false hm]
      have hrel' : visRel (insert t vis) (Solver.vUpd v (packSt t)) := by
        obtain ⟨hmem, hiff⟩ := hrel
        constructor
        · intro ms' hms'
          rcases Finset.mem_insert.mp hms' with rfl | hms'
          · exact htin
          · exact hmem ms' hms'
        · intro s
          unfold Solver.vUpd
          constructor
          · intro hs
            by_cases hst : s = packSt t
            · exact ⟨t, Finset.mem_insert_self t vis, htin, hst.symm⟩
            · rw [if_neg hst] at hs
              obtain ⟨ms', hms', hinb', hpk⟩ := (hiff s).mp hs
              exact ⟨ms', Finset.mem_insert_of_mem hms', hinb', hpk⟩
          · rintro ⟨ms', hms', hinb', hpk⟩
            rcases Finset.mem_insert.mp hms' with rfl | hms'
            · rw [if_pos hpk.symm]
            · by_cases hst : s = packSt t
              · rw [if_pos hst]
              · rw [if_neg hst]
                exact (hiff s).mpr ⟨ms', hms', hinb', hpk⟩
      have hqin' : ∀ e ∈ qm ++ [(t, parMoves ++ [mv])], mInb e.1 := by
        intro e he
        rcases List.mem_append.mp he with he | he
        · exact hqin e he
        · rw [List.mem_singleton.mp he]
          exact htin
      obtain ⟨v', hpush, hrel2, hqin2⟩ :=
        ih (qm ++ [(t, parMoves ++ [mv])]) (insert t vis) (Solver.vUpd v (packSt t))
          parN parMoves qm2 vis2 hpath hrel' htl hqin' hps
      refine ⟨v', ?_, hrel2, hqin2⟩
      rw [← hpush]
      simp [hpath]

/-- The two BFS loops run in lockstep. -/
theorem bfs_lockstep {bm : BoardM} {bs : Solver.Board}
    (hb : boardRel bm bs) (hres : cellsRestricted bm) :
    ∀ fuel (qm : List (MState × List SMove)) (vis : Finset MState)
      (v : Solver.Vis),
      visRel vis v → (∀ e ∈ qm, mInb e.1) →
      resRel (bfsAuxM bm fuel qm vis)
        (Solver.bfsAux bs fuel (qm.map (fun e => ⟨packSt e.1, e.2⟩)) v) := by
  intro fuel
  induction fuel with
  | zero =>
    intro qm vis v _ _
    show resRel none Solver.BfsRes.outOfFuel
    trivial
  | succ k ih =>
    intro qm vis v hrel hqin
    cases qm with
    | nil =>
      show resRel (some none) Solver.BfsRes.unsolvable
      trivial
    | cons e rest =>
      obtain ⟨st, moves⟩ := e
      have hstin : mInb st := hqin (st, moves) (by simp)
      have hrest : ∀ e ∈ rest, mInb e.1 := fun e he => hqin e (by simp [he])
      simp only [List.map_cons, bfsAuxM, Solver.bfsAux]
      have hsf : Solver.solFound bs (packSt st) = solFoundM bm st :=
        solFound_corr hb hstin
      by_cases hs : solFoundM bm st = true
      · rw [if_pos hs, if_pos (by simpa [hsf] using hs)]
        show resRel (some (some (st, moves, vis.card)))
          (Solver.BfsRes.solved (packSt st) moves)
        exact ⟨rfl, rfl⟩
      · rw [if_neg hs, if_neg (by simpa [hsf] using hs)]
        cases hps : pushSuccM moves (neighbourhoodM bm st) rest vis with
        | mk qm2 vis2 =>
          rw [show Solver.neighbourhood bs
              (Solver.Node.mk (packSt st) moves).state =
                (neighbourhoodM bm st).map (fun e => (e.1, packSt e.2)) from
            neighbourhood_corr hb hres hstin]
          obtain ⟨v', hpush, hrel2, hqin2⟩ :=
            pushSucc_corr (neighbourhoodM bm st) rest vis v
              ⟨packSt st, moves⟩ moves qm2 vis2 rfl hrel
              (neighbourhoodM_inb hstin) hrest hps
          rw [hpush]
          exact ih qm2 vis2 v' hrel2 hqin2

/-- Claim C8: on an `8 × 8` board whose cells are `Empty`, `Blocker`,
`Start` or `Goal`, with corresponding in-bounds initial states whose
`goal_visited` flag is unset, the hash-set solver of `main.rs` and the
dense-table solver of `solver.rs` agree at every fuel: both run out of
fuel, or both report no solution, or both return the same move list and
corresponding terminal states. -/
theorem hashset_dense_equiv (bm : BoardM) (bs : Solver.Board) (ms : MState)
    (hb : boardRel bm bs) (hres : cellsRestricted bm) (hin : mInb ms)
    (hfl : ms.fl = false) (fuel : Nat) :
    resRel (solve_puzzleM bm ms fuel)
      (Solver.solve_puzzle bs (packSt ms) fuel) := by
  unfold solve_puzzleM Solver.solve_puzzle
  have hrel : visRel ∅ Solver.visInit := by
    constructor
    · intro ms' hms'
      exact absurd hms' (by simp)
    · intro s
      simp [Solver.visInit]
  have := bfs_lockstep hb hres fuel [(ms, [])] ∅ Solver.visInit hrel
    (by intro e he; rw [List.mem_singleton.mp he]; exact hin)
  simpa using this

/-- Witness for C8 at a concrete input: on the enclosed `8 × 8` puzzle
both solvers report no solution. -/
theorem hashset_dense_equiv_witness :
    (boardRel encBoardM encBoardS ∧ cellsRestricted encBoardM ∧
        mInb encStateM ∧ encStateM.fl = false) ∧
      resRel (solve_puzzleM encBoardM encStateM 2)
        (Solver.solve_puzzle encBoardS (packSt encStateM) 2) :=
  ⟨⟨by decide, by decide, by decide, rfl⟩,
    hashset_dense_equiv encBoardM encBoardS encStateM (by decide) (by decide)
      (by decide) rfl 2⟩

end MainRs
